import Mathlib

/-!
# Verification of the parsey Earley parser (src/lib of patgrasso/parsey)

This file embeds the JavaScript sources `lib/rules.js`, `lib/tokenizer.js`
and `lib/parser.js` shallowly in Lean and settles the claims of the
specification against the embedding.

Modelling conventions:
* A `Sym` (non-terminal) is identified by a natural number: JS compares
  symbols by object identity, which the model realises by giving every
  distinct symbol a distinct number.
* A `Rule` is identified by its index in the grammar list: JS compares
  rules with `===` (reference identity); in any single parse all rules an
  item can reference come from the grammar array, so the index is a
  faithful identity.
* JS `RegExp` objects are modelled by a small regex AST (`Regex`) together
  with JS `RegExp.prototype.test` search semantics, including the mutable
  `lastIndex` of `g`-flagged regexes, which is threaded through every
  function as an explicit association list `RegexSt` (object identity of a
  RegExp literal is a numeric id `gid`).
* `tokens[i]` for `i` out of range is JS `undefined`; `undefined` coerced
  to a string by a regex test is the literal string `"undefined"`, while
  `'lit' === undefined` is simply false.  Both are modelled exactly.
* JS exceptions (`TypeError` from indexing `undefined`, `SyntaxError` from
  the extractor) are modelled with `Except JsErr`.  Unbounded loops and
  recursion (the chart saturation loop, the DFS) take fuel; running out of
  fuel is the separate error `JsErr.fuel` and is never identified with a
  behaviour of the program.
-/

/-! ## A small regex AST with JS `test` semantics

The regexes that occur as pattern terminals are modelled by the AST below
(empty string, single character, alternation, concatenation, Kleene star;
`r+` is expressible as `cat r (star r)`).  `prefList r s` returns the
lengths of the prefixes of `s` matched by `r`, in the preference order of a
backtracking JS engine: alternation prefers the left branch, star is
greedy and (like JS engines) never repeats an empty iteration.  The head
of `prefList` is therefore the match a JS engine reports. -/

inductive Regex : Type where
  | eps : Regex
  | char : Char → Regex
  | alt : Regex → Regex → Regex
  | cat : Regex → Regex → Regex
  | star : Regex → Regex
deriving DecidableEq, Repr

/-- One `star` layer: `base` enumerates match lengths of the starred body;
iterate it greedily, refusing empty iterations (as JS engines do to avoid
infinite loops).  `k` is fuel; `k = s.length + 1` always suffices because
every iteration consumes at least one character. -/
def starIter (base : List Char → List Nat) : Nat → List Char → List Nat
  | 0, _ => [0]
  | k + 1, s =>
    (base s).flatMap (fun n1 =>
      if 0 < n1 ∧ n1 ≤ s.length then
        (starIter base k (s.drop n1)).map (fun n2 => n1 + n2)
      else []) ++ [0]

/-- Match lengths of prefixes of `s` matched by `r`, in JS backtracking
preference order (leftmost alternative first, greedy star). -/
def prefList : Regex → List Char → List Nat
  | .eps, _ => [0]
  | .char _, [] => []
  | .char c, a :: _ => if a = c then [1] else []
  | .alt r1 r2, s => prefList r1 s ++ prefList r2 s
  | .cat r1 r2, s =>
    (prefList r1 s).flatMap (fun n1 => (prefList r2 (s.drop n1)).map (fun n2 => n1 + n2))
  | .star r, s => starIter (prefList r) (s.length + 1) s

/-- Declarative matching semantics of the regex AST. -/
inductive RMatch : Regex → List Char → Prop where
  | eps : RMatch .eps []
  | char (c : Char) : RMatch (.char c) [c]
  | altL {r1 r2 s} : RMatch r1 s → RMatch (.alt r1 r2) s
  | altR {r1 r2 s} : RMatch r2 s → RMatch (.alt r1 r2) s
  | cat {r1 r2 s1 s2} : RMatch r1 s1 → RMatch r2 s2 → RMatch (.cat r1 r2) (s1 ++ s2)
  | starNil {r} : RMatch (.star r) []
  | starCons {r s1 s2} : RMatch r s1 → RMatch (.star r) s2 → RMatch (.star r) (s1 ++ s2)

/-! ## JS `RegExp.prototype.test`, with the mutable `lastIndex` of `g` flags -/

/-- Persistent state of `g`-flagged regexes: an association list from a
regex object's identity (`gid`) to its current `lastIndex`.  A fresh JS
`RegExp` has `lastIndex = 0`, the default for absent ids. -/
abbrev RegexSt := List (Nat × Nat)

def liGet (σ : RegexSt) (id : Nat) : Nat :=
  ((σ.find? (fun pr => pr.1 == id)).map Prod.snd).getD 0

def liSet (σ : RegexSt) (id v : Nat) : RegexSt := (id, v) :: σ

/-- A JS `RegExp` value: its AST, whether it carries the `g` flag, and its
object identity (two regex literals are distinct objects even when their
sources coincide). -/
structure Pattern where
  re : Regex
  glob : Bool
  gid : Nat
deriving DecidableEq, Repr

/-- End position of the first match of `re` in `cs` starting at or after
`start`: the leftmost start position wins, and at that position the
backtracking engine's preferred match (head of `prefList`) gives the end. -/
def firstMatchEnd (re : Regex) (cs : List Char) (start : Nat) : Option Nat :=
  (List.range' start (cs.length + 1 - start)).findSome?
    (fun i => ((prefList re (cs.drop i)).head?).map (fun n => i + n))

/-- JS `p.test(t)` (parser.js lines 71, 162): for a non-global regex search
from 0 with the state untouched; for a `g`-flagged regex search from
`lastIndex`, setting `lastIndex` to the match end on success and to 0 on
failure. -/
def jsTest (σ : RegexSt) (p : Pattern) (t : String) : Bool × RegexSt :=
  if p.glob then
    match firstMatchEnd p.re t.data (liGet σ p.gid) with
    | some e => (true, liSet σ p.gid e)
    | none => (false, liSet σ p.gid 0)
  else ((firstMatchEnd p.re t.data 0).isSome, σ)

/-! ## Grammar data model (lib/rules.js)

A `Sym` is a bare identity (`Nat`).  A rule's right-hand side mixes symbol
references, literal strings and `RegExp` patterns, exactly the three
runtime types parser.js discriminates with `instanceof rules.Sym`,
`typeof === 'string'` and `instanceof RegExp`. -/

inductive RhsElem : Type where
  | sym (s : Nat)
  | str (lit : String)
  | pat (p : Pattern)
deriving DecidableEq, Repr

structure RuleR where
  lhs : Nat
  rhs : List RhsElem
deriving DecidableEq, Repr

/-- A grammar is the ordered rule array; a rule's identity is its index. -/
abbrev Grammar := List RuleR

/-- An Earley item, the `{name, rule, position, origin}` record of
parser.js with the unused `name` dropped and `rule` the rule's index. -/
structure Item where
  rule : Nat
  pos : Nat
  origin : Nat
deriving DecidableEq, Repr

abbrev Chart := List (List Item)

/-- Errors of the embedding: `typeError` models a JS `TypeError` thrown by
operating on `undefined`, `syntaxError k tok` the extractor's
`SyntaxError` naming position `k` and token `tok` (`none` = `undefined`),
`invalidRule` the `Error` of the Rule constructor, and `fuel` exhaustion
of the model's fuel (never a behaviour of the program). -/
inductive JsErr : Type where
  | typeError
  | syntaxError (k : Nat) (tok : Option String)
  | invalidRule
  | fuel
deriving DecidableEq, Repr

def ruleGet (g : Grammar) (ridx : Nat) : Option RuleR := g[ridx]?

/-- `rule[d]` of JS: the rule is an array of its rhs elements. -/
def elemAt (g : Grammar) (ridx d : Nat) : Option RhsElem :=
  (g[ridx]?).bind (fun r => r.rhs[d]?)

/-- `rule.length` of JS (0 for an invalid index, which never occurs). -/
def ruleLen (g : Grammar) (ridx : Nat) : Nat :=
  ((g[ridx]?).map (fun r => r.rhs.length)).getD 0

def lhsGet (g : Grammar) (ridx : Nat) : Option Nat := (g[ridx]?).map (fun r => r.lhs)

/-- `states[i][j]`. -/
def stateGet (states : Chart) (i j : Nat) : Option Item :=
  (states[i]?).bind (fun st => st[j]?)

/-- `states[i].push(x)` (no-op on an out-of-range index; each use site
models the JS crash separately where it can occur). -/
def pushAt (states : Chart) (i : Nat) (x : Item) : Chart :=
  states.set i ((states[i]?.getD []) ++ [x])

/-- `tokens[i]` as the regex engine sees it: JS coerces `undefined` to the
string `"undefined"` inside `RegExp.prototype.test`. -/
def tokAt (tokens : List String) (i : Nat) : String := (tokens[i]?).getD "undefined"

/-! ## Default tokenizer (lib/tokenizer.js) -/

/-- The escaped literal string as a regex (the `replace` call in the
tokenizer escapes regex metacharacters, so the source matches the string
literally). -/
def strRegex (lit : String) : Regex :=
  lit.data.foldr (fun c acc => Regex.cat (.char c) acc) .eps

/-- All terminal elements of the grammar in rule order, each as the regex
the tokenizer splices into the delimiter alternation. -/
def collectTerms (g : Grammar) : List Regex :=
  g.flatMap (fun r => r.rhs.filterMap (fun e =>
    match e with
    | .str lit => some (strRegex lit)
    | .pat p => some p.re
    | .sym _ => none))

/-- `tokens.join('|')` wrapped in a group: alternation preferring earlier
terminals; the empty join gives `()`, which matches the empty string. -/
def altList : List Regex → Regex
  | [] => .eps
  | [r] => r
  | r :: rs => .alt r (altList rs)

/-- ECMAScript `String.prototype.split` with a separator regex that is one
capture group around the whole separator: scan `q` forward from `p`; at a
match ending at `e`, an empty match at the piece start (`e = p`) just
advances `q`, otherwise cut the piece `cs[p..q)`, emit the captured
separator `cs[q..e)` and resume at `e`.  `2*|cs|+2` fuel always suffices. -/
def splitGo (re : Regex) (cs : List Char) : Nat → Nat → Nat → List (List Char)
  | 0, p, _ => [cs.drop p]
  | f + 1, p, q =>
    if q < cs.length then
      match (prefList re (cs.drop q)).head? with
      | none => splitGo re cs f p (q + 1)
      | some n =>
        let e := q + n
        if e = p then splitGo re cs f p (q + 1)
        else ((cs.drop p).take (q - p)) :: ((cs.drop q).take n) :: splitGo re cs f e e
    else [cs.drop p]

/-- JS whitespace for `String.prototype.trim` (the characters relevant to
the embedding). -/
def isWsp (c : Char) : Bool :=
  c == ' ' || c == '\t' || c == '\n' || c == '\r'

/-- `piece.trim()`: strip whitespace from both ends. -/
def trimChars (cs : List Char) : List Char :=
  ((cs.dropWhile isWsp).reverse.dropWhile isWsp).reverse

/-- The default tokenizer: split the sentence by the terminal alternation,
trim every piece, drop the empty ones.  Called with no grammar
(`undefined`), the very first step `grammar.reduce(...)` throws a
`TypeError`. -/
def tokenizeJs (sent : String) (g : Option Grammar) : Except JsErr (List String) :=
  match g with
  | none => .error .typeError
  | some g =>
    let delims := altList (collectTerms g)
    let parts := splitGo delims sent.data (2 * sent.data.length + 2) 0 0
    .ok ((parts.map (fun cs => String.mk (trimChars cs))).filter (fun s => s != ""))

/-! ## Earley recognizer (lib/parser.js, `earley` and its three steps) -/

/-- `predict` (parser.js lines 40-61).  Note the duplicate filter
`earleyItem.rule === rule && curr.position === 0`: the second conjunct
tests the dot of the *predicting* item `curr`, so whenever `curr.position`
is nonzero the filter never matches and every rule is pushed again. -/
def predictStep (g : Grammar) (states : Chart) (i j : Nat) : Chart :=
  match stateGet states i j with
  | none => states
  | some curr =>
    match elemAt g curr.rule curr.pos with
    | some (.sym _) =>
      (List.range g.length).foldl (fun sts ridx =>
        let hasIt := curr.pos == 0 && (sts[i]?.getD []).any (fun it => it.rule == ridx)
        if hasIt then sts else pushAt sts i ⟨ridx, 0, i⟩) states
    | _ => states

/-- `scan` (parser.js lines 64-85).  The JS guard is `i < states.length`,
which always holds inside the loop; pushing to `states[i+1]` when
`i + 1 = states.length` hits `undefined.push` and raises a `TypeError`. -/
def scanStep (g : Grammar) (tokens : List String) (states : Chart) (i j : Nat) (σ : RegexSt) :
    Except JsErr (Chart × RegexSt) :=
  match stateGet states i j with
  | none => .ok (states, σ)
  | some curr =>
    match elemAt g curr.rule curr.pos with
    | some (.pat p) =>
      let br := jsTest σ p (tokAt tokens i)
      if br.1 && decide (i < states.length) then
        if i + 1 < states.length then
          .ok (pushAt states (i + 1) { curr with pos := curr.pos + 1 }, br.2)
        else .error .typeError
      else .ok (states, br.2)
    | some (.str lit) =>
      if tokens[i]? == some lit && decide (i < states.length) then
        if i + 1 < states.length then
          .ok (pushAt states (i + 1) { curr with pos := curr.pos + 1 }, σ)
        else .error .typeError
      else .ok (states, σ)
    | _ => .ok (states, σ)

/-- `complete` (parser.js lines 87-110): for a finished item, advance every
item of the origin state whose next element is the finished rule's lhs,
suppressing exact `(rule, position+1, origin)` duplicates.  `forEach`
visits only the elements present when the iteration starts. -/
def completeStep (g : Grammar) (states : Chart) (i j : Nat) : Chart :=
  match stateGet states i j with
  | none => states
  | some curr =>
    if ruleLen g curr.rule ≤ curr.pos then
      (states[curr.origin]?.getD []).foldl (fun sts ei =>
        match elemAt g ei.rule ei.pos, lhsGet g curr.rule with
        | some (.sym s), some lhs =>
          if s == lhs then
            let dup := (sts[i]?.getD []).any (fun x =>
              x.rule == ei.rule && x.pos == ei.pos + 1 && x.origin == ei.origin)
            if dup then sts else pushAt sts i ⟨ei.rule, ei.pos + 1, ei.origin⟩
          else sts
        | _, _ => sts) states
    else states

/-- State 0 seeded with `(r, 0, 0)` for every rule, in grammar order
(parser.js lines 16-26). -/
def initChart (g : Grammar) (tokens : List String) : Chart :=
  (List.replicate (tokens.length + 1) ([] : List Item)).set 0
    ((List.range g.length).map (fun ridx => ⟨ridx, 0, 0⟩))

/-- The chart saturation loop (parser.js lines 28-34): for each `i` up to
`tokens.length` inclusive, sweep `j` over the growing state `S[i]` running
predict, scan, complete on `states[i][j]`. -/
def earleyGo (g : Grammar) (tokens : List String) :
    Nat → Chart → Nat → Nat → RegexSt → Except JsErr (Chart × RegexSt)
  | 0, _, _, _, _ => .error .fuel
  | f + 1, states, i, j, σ =>
    if tokens.length < i then .ok (states, σ)
    else if (states[i]?.getD []).length ≤ j then earleyGo g tokens f states (i + 1) 0 σ
    else
      let s1 := predictStep g states i j
      match scanStep g tokens s1 i j σ with
      | .error e => .error e
      | .ok (s2, σ') => earleyGo g tokens f (completeStep g s2 i j) i (j + 1) σ'

/-- `removeUnfinishedItems` (parser.js lines 112-116). -/
def removeUnfinishedItems (g : Grammar) (states : Chart) : Chart :=
  states.map (fun st => st.filter (fun it => decide (ruleLen g it.rule ≤ it.pos)))

/-- `swap` (parser.js lines 118-128): move every item of state `i` with
origin `o` to the new state `o`, rewriting its origin to `i`. -/
def swapChart (states : Chart) : Chart :=
  states.enum.foldl (fun acc pr =>
    pr.2.foldl (fun acc2 it => pushAt acc2 it.origin { it with origin := pr.1 }) acc)
    (List.replicate states.length [])

/-- `earley` (parser.js lines 15-37): saturation then the two-pass chart
transformation. -/
def earleyS (g : Grammar) (tokens : List String) (σ : RegexSt) (fuel : Nat) :
    Except JsErr (Chart × RegexSt) :=
  match earleyGo g tokens fuel (initChart g tokens) 0 0 σ with
  | .error e => .error e
  | .ok (states, σ') => .ok (swapChart (removeUnfinishedItems g states), σ')

/-! ## Parse trees and the DFS extractor (lib/parser.js, `dfs`/`dfsHelper`) -/

mutual
/-- The tree node `{item: rule, children}` returned by the extractor.
`children` is `none` when the JS value is `null`/`undefined` (a failed
sub-extraction is stored unchecked at parser.js line 190). -/
inductive PTree : Type where
  | mk (rule : Nat) (children : Option (List PChild))
/-- A child is a matched literal token (`tokens[state]`, which is JS
`undefined` — here `none` — past the end) or a subtree. -/
inductive PChild : Type where
  | tok (s : Option String)
  | node (t : PTree)
end


def PTree.ruleIdx : PTree → Nat
  | .mk r _ => r

def PTree.children : PTree → Option (List PChild)
  | .mk _ c => c

/-- One step of the candidate sweep of the non-terminal case (parser.js
lines 182-195): `h1 c` matches the rest of the rule from `c.origin` (the
candidate's end position); on success `h2 c` computes the candidate's own
(unchecked!) expansion and the subtree entry is appended, keeping
candidate order.  A JS exception (`error`) aborts the whole sweep. -/
def candStep (h1 h2 : Item → RegexSt → Except JsErr (Option (List PChild) × RegexSt))
    (acc : Except JsErr (List (List PChild) × RegexSt)) (c : Item) :
    Except JsErr (List (List PChild) × RegexSt) :=
  match acc with
  | .error er => .error er
  | .ok pr =>
    match h1 c pr.2 with
    | .error er => .error er
    | .ok sub =>
      match sub.1 with
      | none => .ok (pr.1, sub.2)
      | some L =>
        match h2 c sub.2 with
        | .error er => .error er
        | .ok kids => .ok (pr.1 ++ [PChild.node (.mk c.rule kids.1) :: L], kids.2)

/-- The candidate sweep (`.map` over the filtered state followed by the
success filter), with abstract treatment `h1`/`h2` of a candidate. -/
def dfsCandsF (h1 h2 : Item → RegexSt → Except JsErr (Option (List PChild) × RegexSt))
    (cands : List Item) (σ : RegexSt) :
    Except JsErr (List (List PChild) × RegexSt) :=
  cands.foldl (candStep h1 h2) (.ok ([], σ))

/-- `dfsHelper` (parser.js lines 152-209) with explicit call-depth fuel.
Base case first; then the two terminal cases (which re-run the same
`test`/equality match the scanner used, threading the regex state); then
the non-terminal case: filter the state's items by lhs identity, process
every candidate, keep the successes, return the first (`edges[0]`, `none`
when there is none).  `states[state]` on a missing state index throws. -/
def dfsHelper (g : Grammar) (tokens : List String) (states : Chart) :
    Nat → Item → Nat → Nat → RegexSt → Except JsErr (Option (List PChild) × RegexSt)
  | 0, _, _, _, _ => .error .fuel
  | f + 1, root, state, depth, σ =>
    if state == root.origin && depth == ruleLen g root.rule then .ok (some [], σ)
    else
      match elemAt g root.rule depth with
      | some (.pat p) =>
        let br := jsTest σ p (tokAt tokens state)
        if br.1 then
          match dfsHelper g tokens states f root (state + 1) (depth + 1) br.2 with
          | .error e => .error e
          | .ok (some L, σ2) => .ok (some (.tok (tokens[state]?) :: L), σ2)
          | .ok (none, σ2) => .ok (none, σ2)
        else .ok (none, br.2)
      | some (.str lit) =>
        if tokens[state]? == some lit then
          match dfsHelper g tokens states f root (state + 1) (depth + 1) σ with
          | .error e => .error e
          | .ok (some L, σ2) => .ok (some (.tok (tokens[state]?) :: L), σ2)
          | .ok (none, σ2) => .ok (none, σ2)
        else .ok (none, σ)
      | e =>
        match states[state]? with
        | none => .error .typeError
        | some stateList =>
          let cands := stateList.filter (fun c =>
            match e with
            | some (.sym a) => lhsGet g c.rule == some a
            | _ => false)
          match dfsCandsF
              (fun c σ0 => dfsHelper g tokens states f root c.origin (depth + 1) σ0)
              (fun c σ1 => dfsHelper g tokens states f c state 0 σ1) cands σ with
          | .error er => .error er
          | .ok pr => .ok (pr.1.head?, pr.2)

/-- The candidate sweep with the two treatments instantiated to the real
recursive calls of `dfsHelper` at fuel `f`. -/
def dfsCands (g : Grammar) (tokens : List String) (states : Chart)
    (f : Nat) (root : Item) (state depth : Nat) (cands : List Item) (σ : RegexSt) :
    Except JsErr (List (List PChild) × RegexSt) :=
  dfsCandsF
    (fun c σ0 => dfsHelper g tokens states f root c.origin (depth + 1) σ0)
    (fun c σ1 => dfsHelper g tokens states f c state 0 σ1) cands σ

/-- The root `reduce` of `dfs` (parser.js lines 131-136): first item with
strictly maximal end position (`origin` after the swap), `none` on an
empty state. -/
def rootPick (s0 : List Item) : Option Item :=
  s0.foldl (fun best c =>
    match best with
    | none => some c
    | some b => if b.origin < c.origin then some c else some b) none

/-- `dfs` (parser.js lines 130-149): pick the root from the transformed
state 0; raise naming `tokens[0]` if there is none, raise naming
`tokens[root.origin]` if the root does not span the whole input; otherwise
return the tree (whose children are *not* checked for success). -/
def dfs (g : Grammar) (tokens : List String) (states : Chart) (σ : RegexSt) (fuel : Nat) :
    Except JsErr (PTree × RegexSt) :=
  match states[0]? with
  | none => .error .typeError
  | some s0 =>
    match rootPick s0 with
    | none => .error (.syntaxError 0 (tokens[0]?))
    | some root =>
      if root.origin ≠ tokens.length then
        .error (.syntaxError root.origin (tokens[root.origin]?))
      else
        match dfsHelper g tokens states fuel root 0 0 σ with
        | .error e => .error e
        | .ok (ch, σ2) => .ok (.mk root.rule ch, σ2)

/-! ## The parse façade (lib/parser.js, `parse`) -/

abbrev TokenizerFn := String → Option Grammar → Except JsErr (List String)

/-- `parse(sent, grammar, tokenizer)` (parser.js lines 8-12).  The
fallback `grammar || rules.rules` is `undefined` whenever `grammar` is
missing, because lib/rules.js exports only `Rule` and `Sym` and no
`rules` grammar; the model therefore passes `none` through.  The default
tokenizer then throws before recognition starts. -/
def parseS (sent : String) (grammar : Option Grammar) (tk : Option TokenizerFn)
    (σ : RegexSt) (fuel : Nat) : Except JsErr (PTree × RegexSt) :=
  match (tk.getD tokenizeJs) sent grammar with
  | .error e => .error e
  | .ok tokens =>
    match grammar with
    | none => .error .typeError
    | some g =>
      match earleyS g tokens σ fuel with
      | .error e => .error e
      | .ok (chart, σ1) => dfs g tokens chart σ1 fuel

/-! ## The Rule constructor (lib/rules.js) -/

/-- The array-like rule object: `lhs`, positional rhs elements, and the
optional valuator closed over by `evaluate`. -/
structure RuleObj (α : Type) : Type where
  lhs : Nat
  elems : List RhsElem
  valuator : Option (List α → α)

/-- `Rule(lhs, rhs, valuator)` (rules.js lines 26-43): throws
`'Rule does not produce anything'` when `rhs` is missing (`undefined`) or
empty; otherwise returns the array of the rhs elements with `lhs` and
`evaluate` attached. -/
def mkRule {α : Type} (lhs : Nat) (rhs : Option (List RhsElem))
    (valuator : Option (List α → α)) : Except JsErr (RuleObj α) :=
  match rhs with
  | none => .error .invalidRule
  | some l => if l.isEmpty then .error .invalidRule else .ok ⟨lhs, l, valuator⟩

/-- `evaluate(values)` (rules.js line 37): apply the valuator positionally,
or return the `null` sentinel (`none`) when none was supplied. -/
def evalRule {α : Type} (r : RuleObj α) (values : List α) : Option α :=
  r.valuator.map (fun f => f values)

/-! ## Yield of a tree and well-formedness of children -/

mutual
/-- Left-to-right leaf tokens of a children list; an absent (`null`)
children list contributes no leaves. -/
def yieldChildren : List PChild → List String
  | [] => []
  | .tok o :: rest => o.getD "undefined" :: yieldChildren rest
  | .node t :: rest => yieldTree t ++ yieldChildren rest
/-- Left-to-right leaf tokens of a tree. -/
def yieldTree : PTree → List String
  | .mk _ none => []
  | .mk _ (some L) => yieldChildren L
end


mutual
/-- Every node below these children carries a materialised (non-`null`)
children list. -/
def childrenAllSome : List PChild → Bool
  | [] => true
  | .tok _ :: rest => childrenAllSome rest
  | .node t :: rest => treeAllSome t && childrenAllSome rest
/-- The tree and every node below it carries a materialised children
list. -/
def treeAllSome : PTree → Bool
  | .mk _ none => false
  | .mk _ (some L) => childrenAllSome L
end

/-! ## The chart invariant (claim C7) -/

/-- For every item `(r, d, o)` in state `i`: `o ≤ i` and
`d ≤ r.rhs.length` (`0 ≤ o` and `0 ≤ d` are trivial for naturals). -/
def ChartInv (g : Grammar) (states : Chart) : Prop :=
  ∀ (i : Nat) (L : List Item), states[i]? = some L →
    ∀ x ∈ L, x.origin ≤ i ∧ x.pos ≤ ruleLen g x.rule

/-! ## Determinism and the `g` flag (claim C5) -/

/-- No pattern terminal of the grammar carries the `g` flag. -/
def noGlobal (g : Grammar) : Bool :=
  g.all (fun r => r.rhs.all (fun e =>
    match e with
    | .pat p => !p.glob
    | _ => true))

/-! ## Yield of the extracted tree (claim C4) -/

/-- `tokens[s..e)`. -/
def sliceTok (tokens : List String) (s e : Nat) : List String :=
  (tokens.drop s).take (e - s)

/-- The bound the transformed chart satisfies: every item of state `p`
spans `[p, origin]` with `origin ≤ n`. -/
def ChartBound (states : Chart) (n : Nat) : Prop :=
  ∀ (p : Nat) (L : List Item), states[p]? = some L →
    ∀ c ∈ L, p ≤ c.origin ∧ c.origin ≤ n

theorem RMatch.eps_inv {w : List Char} (h : RMatch .eps w) : w = [] := by
  cases h; rfl

theorem RMatch.char_inv {c : Char} {w : List Char} (h : RMatch (.char c) w) : w = [c] := by
  cases h; rfl

theorem RMatch.alt_inv {r1 r2 : Regex} {w : List Char} (h : RMatch (.alt r1 r2) w) :
    RMatch r1 w ∨ RMatch r2 w := by
  cases h with
  | altL h => exact Or.inl h
  | altR h => exact Or.inr h

theorem RMatch.cat_decomp {r1 r2 : Regex} {w : List Char} (h : RMatch (.cat r1 r2) w) :
    ∃ s1 s2, RMatch r1 s1 ∧ RMatch r2 s2 ∧ w = s1 ++ s2 := by
  cases h with
  | cat h1 h2 => exact ⟨_, _, h1, h2, rfl⟩

theorem RMatch.star_decomp_aux {re : Regex} {w : List Char} (h : RMatch re w) :
    ∀ r : Regex, re = .star r →
      w = [] ∨ ∃ s1 s2, s1 ≠ [] ∧ RMatch r s1 ∧ RMatch (.star r) s2 ∧ w = s1 ++ s2 := by
  induction h with
  | eps => intro r hre; simp at hre
  | char c => intro r hre; simp at hre
  | altL _ _ => intro r hre; simp at hre
  | altR _ _ => intro r hre; simp at hre
  | cat _ _ _ _ => intro r hre; simp at hre
  | starNil => intro r hre; exact Or.inl rfl
  | starCons h1 h2 ih1 ih2 =>
    rename_i rr s1 s2
    intro r hre
    injection hre with hr
    subst hr
    by_cases hs1 : s1 = []
    · subst hs1
      simpa using ih2 rr rfl
    · exact Or.inr ⟨s1, s2, hs1, h1, h2, rfl⟩

/-- A star match decomposes into a first nonempty iteration and a rest,
unless it is empty. -/
theorem RMatch.star_decomp {r : Regex} {w : List Char} (h : RMatch (.star r) w) :
    w = [] ∨ ∃ s1 s2, s1 ≠ [] ∧ RMatch r s1 ∧ RMatch (.star r) s2 ∧ w = s1 ++ s2 :=
  h.star_decomp_aux r rfl

/-- `starIter` computes exactly the lengths of prefixes matched by `star r`,
provided the fuel exceeds the word length and `base` is correct for `r`. -/
theorem mem_starIter {r : Regex}
    (IHr : ∀ s n, n ∈ prefList r s ↔ n ≤ s.length ∧ RMatch r (s.take n)) :
    ∀ (k : Nat) (s : List Char) (n : Nat), s.length < k →
      (n ∈ starIter (prefList r) k s ↔ n ≤ s.length ∧ RMatch (.star r) (s.take n)) := by
  intro k
  induction k with
  | zero => intro s n h; omega
  | succ k ih =>
    intro s n hlen
    simp only [starIter, List.mem_append, List.mem_flatMap, List.mem_singleton]
    constructor
    · rintro (⟨n1, hn1, hmem⟩ | rfl)
      · by_cases hg : 0 < n1 ∧ n1 ≤ s.length
        · rw [if_pos hg] at hmem
          obtain ⟨n2, hn2, rfl⟩ := List.mem_map.mp hmem
          have hdlen : (s.drop n1).length = s.length - n1 := List.length_drop n1 s
          have hlt : (s.drop n1).length < k := by omega
          obtain ⟨hle2, hm2⟩ := (ih (s.drop n1) n2 hlt).mp hn2
          obtain ⟨hle1, hm1⟩ := (IHr s n1).mp hn1
          refine ⟨by omega, ?_⟩
          rw [List.take_add]
          exact RMatch.starCons hm1 hm2
        · rw [if_neg hg] at hmem
          simp at hmem
      · exact ⟨Nat.zero_le _, RMatch.starNil⟩
    · rintro ⟨hle, hm⟩
      rcases hm.star_decomp with hnil | ⟨s1, s2, hne, hm1, hm2, heq⟩
      · right
        have : min n s.length = 0 := by
          simpa [List.length_take] using congrArg List.length hnil
        omega
      · left
        have hlen1 : s1.length + s2.length = n := by
          have := congrArg List.length heq
          simp [List.length_take] at this
          omega
        set n1 := s1.length with hn1def
        have hn1pos : 0 < n1 := by
          cases s1 with
          | nil => exact absurd rfl hne
          | cons a t => simp [hn1def]
        have hn1n : n1 ≤ n := by omega
        have hs1eq : s1 = s.take n1 := by
          have h1 : (s.take n).take n1 = s1 := by
            rw [heq]; simp [hn1def]
          rw [List.take_take] at h1
          rw [← h1]
          congr 1
          omega
        have hs2eq : s2 = (s.drop n1).take (n - n1) := by
          have h2 : (s.take n).drop n1 = s2 := by
            rw [heq]; simp [hn1def]
          rw [List.drop_take] at h2
          exact h2.symm
        refine ⟨n1, ?_, ?_⟩
        · exact (IHr s n1).mpr ⟨by omega, by rw [← hs1eq]; exact hm1⟩
        · rw [if_pos ⟨hn1pos, by omega⟩]
          refine List.mem_map.mpr ⟨n - n1, ?_, by omega⟩
          have hdlen : (s.drop n1).length = s.length - n1 := List.length_drop n1 s
          refine (ih (s.drop n1) (n - n1) (by omega)).mpr ⟨by omega, ?_⟩
          rw [← hs2eq]
          exact hm2

/-- Correctness of `prefList`: `n` is a produced match length iff `r`
matches the length-`n` prefix of `s`. -/
theorem mem_prefList : ∀ (r : Regex) (s : List Char) (n : Nat),
    n ∈ prefList r s ↔ n ≤ s.length ∧ RMatch r (s.take n) := by
  intro r
  induction r with
  | eps =>
    intro s n
    simp only [prefList, List.mem_singleton]
    constructor
    · rintro rfl; exact ⟨Nat.zero_le _, by simpa using RMatch.eps⟩
    · rintro ⟨hle, hm⟩
      have h0 : s.take n = [] := hm.eps_inv
      have : min n s.length = 0 := by
        simpa [List.length_take] using congrArg List.length h0
      omega
  | char c =>
    intro s n
    constructor
    · intro hmem
      cases s with
      | nil => simp [prefList] at hmem
      | cons a t =>
        simp only [prefList] at hmem
        by_cases hac : a = c
        · rw [if_pos hac] at hmem
          simp only [List.mem_singleton] at hmem
          subst hmem; subst hac
          exact ⟨by simp, by simpa using RMatch.char a⟩
        · rw [if_neg hac] at hmem
          simp at hmem
    · rintro ⟨hle, hm⟩
      have hc : s.take n = [c] := hm.char_inv
      have hn1 : n = 1 := by
        have := congrArg List.length hc
        simp [List.length_take] at this
        omega
      subst hn1
      cases s with
      | nil => simp at hle
      | cons a t =>
        simp only [List.take_succ_cons, List.take_zero] at hc
        have hac : a = c := by simpa using hc
        simp [prefList, hac]
  | alt r1 r2 ih1 ih2 =>
    intro s n
    simp only [prefList, List.mem_append, ih1, ih2]
    constructor
    · rintro (⟨h, hm⟩ | ⟨h, hm⟩)
      · exact ⟨h, RMatch.altL hm⟩
      · exact ⟨h, RMatch.altR hm⟩
    · rintro ⟨h, hm⟩
      rcases hm.alt_inv with hm | hm
      · exact Or.inl ⟨h, hm⟩
      · exact Or.inr ⟨h, hm⟩
  | cat r1 r2 ih1 ih2 =>
    intro s n
    simp only [prefList, List.mem_flatMap, List.mem_map]
    constructor
    · rintro ⟨n1, hn1, n2, hn2, rfl⟩
      obtain ⟨hle1, hm1⟩ := (ih1 s n1).mp hn1
      obtain ⟨hle2, hm2⟩ := (ih2 (s.drop n1) n2).mp hn2
      have hdlen : (s.drop n1).length = s.length - n1 := List.length_drop n1 s
      refine ⟨by omega, ?_⟩
      rw [List.take_add]
      exact RMatch.cat hm1 hm2
    · rintro ⟨hle, hm⟩
      obtain ⟨s1, s2, hm1, hm2, heq⟩ := hm.cat_decomp
      have hlen : s1.length + s2.length = n := by
        have := congrArg List.length heq
        simp [List.length_take] at this
        omega
      set n1 := s1.length with hn1def
      have hs1eq : s1 = s.take n1 := by
        have h1 : (s.take n).take n1 = s1 := by
          rw [heq]; simp [hn1def]
        rw [List.take_take] at h1
        rw [← h1]
        congr 1
        omega
      have hs2eq : s2 = (s.drop n1).take (n - n1) := by
        have h2 : (s.take n).drop n1 = s2 := by
          rw [heq]; simp [hn1def]
        rw [List.drop_take] at h2
        exact h2.symm
      refine ⟨n1, (ih1 s n1).mpr ⟨by omega, by rw [← hs1eq]; exact hm1⟩,
        n - n1, ?_, by omega⟩
      have hdlen : (s.drop n1).length = s.length - n1 := List.length_drop n1 s
      exact (ih2 (s.drop n1) (n - n1)).mpr ⟨by omega, by rw [← hs2eq]; exact hm2⟩
  | star r ih =>
    intro s n
    simp only [prefList]
    exact mem_starIter ih (s.length + 1) s n (by omega)


/-! ## Substring characterisation of JS `test` -/

/-- `RMatch` on a whole word is decided by `prefList`. -/
theorem RMatch_iff_mem (r : Regex) (w : List Char) :
    RMatch r w ↔ w.length ∈ prefList r w := by
  rw [mem_prefList]
  simp

/-- The search of `test` finds a match (from position 0) iff the regex
matches some contiguous substring. -/
theorem firstMatchEnd_isSome_iff (re : Regex) (cs : List Char) :
    (firstMatchEnd re cs 0).isSome = true ↔
      ∃ pre mid suf : List Char, cs = pre ++ mid ++ suf ∧ RMatch re mid := by
  rw [firstMatchEnd, List.findSome?_isSome_iff]
  constructor
  · rintro ⟨i, hi, hsome⟩
    simp only [Option.isSome_map'] at hsome
    have hne : prefList re (cs.drop i) ≠ [] := List.head?_isSome.mp hsome
    obtain ⟨n, hn⟩ := List.exists_mem_of_ne_nil _ hne
    obtain ⟨hle, hm⟩ := (mem_prefList re (cs.drop i) n).mp hn
    refine ⟨cs.take i, (cs.drop i).take n, (cs.drop i).drop n, ?_, hm⟩
    rw [List.append_assoc, List.take_append_drop, List.take_append_drop]
  · rintro ⟨pre, mid, suf, heq, hm⟩
    refine ⟨pre.length, ?_, ?_⟩
    · rw [List.mem_range'_1]
      have := congrArg List.length heq
      simp at this
      omega
    · simp only [Option.isSome_map']
      apply List.head?_isSome.mpr
      apply List.ne_nil_of_mem (a := mid.length)
      have hdrop : cs.drop pre.length = mid ++ suf := by
        rw [heq, List.append_assoc, List.drop_left]
      rw [hdrop]
      refine (mem_prefList re (mid ++ suf) mid.length).mpr ⟨by simp, ?_⟩
      rw [List.take_left]
      exact hm

/-- Claim C1, refuted: the match predicate of the scanner and the
extractor is JS `RegExp.prototype.test`, a *substring* search.  The
pattern `/b/` (no flags) applied to the token `"ab"` succeeds although it
does not match the whole token. -/
theorem C1_counterexample :
    (jsTest [] ⟨Regex.char 'b', false, 0⟩ "ab").1 = true ∧
      ¬ RMatch (Regex.char 'b') "ab".data :=
  ⟨by decide, fun h => absurd ((RMatch_iff_mem _ _).mp h) (by decide)⟩

/-- Claim C1 (amended): for a pattern terminal without the `g` flag, the
match predicate used by both the recogniser's scan step and the
extractor's terminal case (`jsTest`, parser.js lines 71 and 162) succeeds
iff the pattern matches *some contiguous substring* of the token — not
necessarily the whole token — and leaves the regex state untouched. -/
theorem C1_theorem (σ : RegexSt) (p : Pattern) (t : String) (hng : p.glob = false) :
    ((jsTest σ p t).1 = true ↔
      ∃ pre mid suf : List Char, t.data = pre ++ mid ++ suf ∧ RMatch p.re mid) ∧
      (jsTest σ p t).2 = σ := by
  rw [jsTest, hng]
  simp only [Bool.false_eq_true, if_false]
  exact ⟨firstMatchEnd_isSome_iff p.re t.data, trivial⟩

/-- Witness for `C1_theorem` at the pattern `/b/` and token `"ab"`. -/
theorem C1_witness :
    (((jsTest [] ⟨Regex.char 'b', false, 0⟩ "ab").1 = true ↔
      ∃ pre mid suf : List Char, "ab".data = pre ++ mid ++ suf ∧
        RMatch (Regex.char 'b') mid) ∧
      (jsTest [] ⟨Regex.char 'b', false, 0⟩ "ab").2 = []) :=
  C1_theorem [] ⟨Regex.char 'b', false, 0⟩ "ab" rfl

/-- Claim C2, code bug, evaluated at the failing input: on the empty token
sequence with the grammar `[S → /d/]` the scan step fires at `i = n = 0`
(because the guard `i < states.length` is vacuous and `/d/` matches the
string `"undefined"` that `tokens[0]` coerces to) and pushes into
`states[1]`, which does not exist: the recogniser raises a `TypeError`
instead of returning a chart. -/
theorem C2_crash_eval :
    earleyS [⟨0, [.pat ⟨Regex.char 'd', false, 0⟩]⟩] [] [] 10 =
      .error .typeError := rfl

/-- Claim C9: rule construction fails iff the rhs is missing or empty; a
non-empty rhs yields the rule with the very same rhs list (hence the same
elements at the same indices and the same length), and `evaluate` returns
the null sentinel when no valuator was supplied. -/
theorem C9_theorem {α : Type} (lhs : Nat) (rhs : Option (List RhsElem))
    (val : Option (List α → α)) :
    ((∃ r, mkRule lhs rhs val = .ok r) ↔ ∃ l, rhs = some l ∧ l ≠ []) ∧
    (∀ l, rhs = some l → l ≠ [] → mkRule lhs rhs val = .ok ⟨lhs, l, val⟩) ∧
    (∀ r, mkRule lhs rhs val = .ok r → r.valuator = none →
      ∀ vs, evalRule r vs = none) := by
  refine ⟨?_, ?_, ?_⟩
  · constructor
    · rintro ⟨r, hr⟩
      cases rhs with
      | none => simp [mkRule] at hr
      | some l =>
        refine ⟨l, rfl, ?_⟩
        intro hnil
        subst hnil
        simp [mkRule] at hr
    · rintro ⟨l, rfl, hne⟩
      refine ⟨⟨lhs, l, val⟩, ?_⟩
      simp [mkRule, List.isEmpty_iff, hne]
  · rintro l rfl hne
    simp [mkRule, List.isEmpty_iff, hne]
  · intro r hr hval vs
    simp [evalRule, hval]

/-- Witness for `C9_theorem`: a concrete one-element rhs produces the rule
unchanged, and its valuator-less `evaluate` returns the sentinel. -/
theorem C9_witness :
    mkRule (α := Nat) 7 (some [.str "x"]) none = .ok ⟨7, [.str "x"], none⟩ ∧
      evalRule (α := Nat) ⟨7, [.str "x"], none⟩ [1, 2] = none := by
  refine ⟨(C9_theorem 7 (some [.str "x"]) none).2.1 [.str "x"] rfl (by simp), ?_⟩
  exact (C9_theorem 7 (some [.str "x"]) none).2.2 ⟨7, [.str "x"], none⟩
    ((C9_theorem 7 (some [.str "x"]) none).2.1 [.str "x"] rfl (by simp)) rfl [1, 2]

/-- Claim C10: `parse` called without a grammar (and without a custom
tokenizer) always raises: lib/rules.js exports no `rules` grammar, so
`grammar || rules.rules` is `undefined` and the default tokenizer's
`grammar.reduce` throws a `TypeError` for every sentence, before any
parsing happens. -/
theorem C10_theorem (sent : String) (σ : RegexSt) (fuel : Nat) :
    parseS sent none none σ fuel = .error .typeError := rfl

/-! ## Chart access lemmas -/

theorem pushAt_get_self {states : Chart} {i : Nat} {L : List Item} (x : Item)
    (h : states[i]? = some L) : (pushAt states i x)[i]? = some (L ++ [x]) := by
  have hlt : i < states.length := (List.getElem?_eq_some.mp h).1
  rw [pushAt, h]
  simpa using List.getElem?_set_self (a := L ++ [x]) hlt

theorem pushAt_get_other {states : Chart} {i k : Nat} (x : Item) (h : k ≠ i) :
    (pushAt states i x)[k]? = states[k]? := by
  rw [pushAt]
  exact List.getElem?_set_ne (Ne.symm h)

theorem pushAt_length (states : Chart) (i : Nat) (x : Item) :
    (pushAt states i x).length = states.length := List.length_set _ _ _

theorem stateGet_mem {states : Chart} {i j : Nat} {curr : Item} {L : List Item}
    (h : stateGet states i j = some curr) (hL : states[i]? = some L) : curr ∈ L := by
  rw [stateGet, hL] at h
  exact List.getElem?_mem h

theorem stateGet_some_state {states : Chart} {i j : Nat} {curr : Item}
    (h : stateGet states i j = some curr) : ∃ L, states[i]? = some L := by
  rw [stateGet] at h
  cases hL : states[i]? with
  | none => rw [hL] at h; simp at h
  | some L => exact ⟨L, rfl⟩

/-! ## The predict step characterised (claim C3) -/

/-- The inner fold of `predictStep`, specified.  `old` is the state list
before prediction starts, `app` what prediction has pushed so far; pushed
items carry rules already processed, so the duplicate filter keeps seeing
exactly `old`. -/
theorem predict_fold_aux (i : Nat) (currPos : Nat) (old : List Item) :
    ∀ (rl : List Nat) (sts : Chart) (app : List Item),
      sts[i]? = some (old ++ app) →
      rl.Nodup →
      (∀ it ∈ app, it.rule ∉ rl) →
      (rl.foldl (fun s ridx =>
        let hasIt := currPos == 0 && (s[i]?.getD []).any (fun it => it.rule == ridx)
        if hasIt then s else pushAt s i ⟨ridx, 0, i⟩) sts)[i]?.getD []
      = old ++ app ++ (rl.filter (fun ridx =>
          !(currPos == 0 && old.any (fun it => it.rule == ridx)))).map
          (fun ridx => (⟨ridx, 0, i⟩ : Item)) := by
  intro rl
  induction rl with
  | nil =>
    intro sts app hsts _ _
    simp [hsts]
  | cons ridx rest ih =>
    intro sts app hsts hnd hdisj
    have happ_any : app.any (fun it => it.rule == ridx) = false := by
      rw [List.any_eq_false]
      intro it hit
      have := hdisj it hit
      simp only [List.mem_cons] at this
      simp only [beq_iff_eq]
      exact fun h => this (Or.inl h)
    have hany : ((old ++ app).any (fun it => it.rule == ridx))
        = old.any (fun it => it.rule == ridx) := by
      rw [List.any_append, happ_any, Bool.or_false]
    simp only [List.foldl_cons, List.filter_cons]
    by_cases hc : (currPos == 0 && old.any (fun it => it.rule == ridx)) = true
    · -- duplicate suppressed: state unchanged, rule filtered out
      have : (currPos == 0 && ((sts[i]?.getD []).any (fun it => it.rule == ridx))) = true := by
        rw [hsts]; simpa [hany] using hc
      simp only [this, if_true, hc, Bool.not_true, Bool.false_eq_true, if_false]
      exact ih sts app hsts (List.Nodup.of_cons hnd)
        (fun it hit => fun hmem => hdisj it hit (List.mem_cons_of_mem _ hmem))
    · -- pushed
      have hc' : (currPos == 0 &&
          ((sts[i]?.getD []).any (fun it => it.rule == ridx))) = false := by
        rw [hsts]
        simpa [hany] using hc
      simp only [hc', Bool.false_eq_true, if_false]
      rw [Bool.not_eq_true] at hc
      simp only [hc, Bool.not_false, if_true]
      have hpush : (pushAt sts i ⟨ridx, 0, i⟩)[i]? = some (old ++ (app ++ [⟨ridx, 0, i⟩])) := by
        rw [← List.append_assoc]
        exact pushAt_get_self _ hsts
      have hnodup_rest := List.Nodup.of_cons hnd
      have hnotin : ridx ∉ rest := (List.nodup_cons.mp hnd).1
      rw [ih (pushAt sts i ⟨ridx, 0, i⟩) (app ++ [⟨ridx, 0, i⟩]) hpush hnodup_rest ?_]
      · simp
      · intro it hit
        rcases List.mem_append.mp hit with h1 | h2
        · exact fun hmem => hdisj it h1 (List.mem_cons_of_mem _ hmem)
        · simp only [List.mem_singleton] at h2
          subst h2
          simpa using hnotin

/-- Claim C3, refuted: the predict duplicate filter is
`earleyItem.rule === rule && curr.position === 0` — it tests the dot of
the *predicting* item against 0, so a predictor with nonzero dot pushes
`(r', 0, i)` even though `S[i]` already holds an item with rule `r'`.
Concretely, with grammar `X → 'a' A | Y → 'a' A | A → 'a'` (rule indices
0,1,2; `A` = symbol 2), predicting from the dot-1 item `(X → 'a'·A, 0)` in
a state that already contains `(A → 'a', 0, 1)` appends a second copy; and
the full recogniser run on tokens `["a", "a"]` really produces two copies
of `(A → 'a', 0, 1)` in `S[1]`. -/
theorem C3_counterexample :
    (stateGet [[], [⟨0, 1, 0⟩, ⟨2, 0, 1⟩], []] 1 0 = some ⟨0, 1, 0⟩) ∧
    (elemAt [⟨0, [.str "a", .sym 2]⟩, ⟨1, [.str "a", .sym 2]⟩, ⟨2, [.str "a"]⟩]
      0 1 = some (.sym 2)) ∧
    ((⟨2, 0, 1⟩ : Item) ∈ (([[], [⟨0, 1, 0⟩, ⟨2, 0, 1⟩], []] : Chart)[1]?.getD [])) ∧
    (List.count (⟨2, 0, 1⟩ : Item)
      ((predictStep [⟨0, [.str "a", .sym 2]⟩, ⟨1, [.str "a", .sym 2]⟩, ⟨2, [.str "a"]⟩]
        [[], [⟨0, 1, 0⟩, ⟨2, 0, 1⟩], []] 1 0)[1]?.getD []) = 2) ∧
    ((match earleyGo [⟨0, [.str "a", .sym 2]⟩, ⟨1, [.str "a", .sym 2]⟩, ⟨2, [.str "a"]⟩]
        ["a", "a"] 200
        (initChart [⟨0, [.str "a", .sym 2]⟩, ⟨1, [.str "a", .sym 2]⟩, ⟨2, [.str "a"]⟩]
          ["a", "a"]) 0 0 [] with
      | .ok (chart, _) => List.count (⟨2, 0, 1⟩ : Item) (chart[1]?.getD [])
      | .error _ => 0) = 2) := by
  refine ⟨rfl, rfl, by decide, by decide, by decide⟩

/-- Claim C3 (amended): when predict fires on `(r, d, o) = states[i][j]`
whose next element is a non-terminal, the rule `r'` (index `ridx`) is
appended as `(r', 0, i)` *unless* the predicting item's dot is 0 and
`S[i]` already contains an item with rule `r'`: the rule-identity
duplicate check is only effective for predictors with dot 0, because the
source compares `curr.position` (the predictor's dot), not the existing
item's, against 0.  States other than `i` are untouched. -/
theorem predict_fold_other (i currPos : Nat) (rl : List Nat) (k : Nat) (hk : k ≠ i) :
    ∀ sts : Chart,
      (rl.foldl (fun s ridx =>
        let hasIt := currPos == 0 && (s[i]?.getD []).any (fun it => it.rule == ridx)
        if hasIt then s else pushAt s i ⟨ridx, 0, i⟩) sts)[k]? = sts[k]? := by
  induction rl with
  | nil => intro sts; rfl
  | cons ridx rest ih =>
    intro sts
    simp only [List.foldl_cons]
    by_cases hc : (currPos == 0 && (sts[i]?.getD []).any (fun it => it.rule == ridx)) = true
    · simp only [hc, if_true]
      exact ih sts
    · rw [Bool.not_eq_true] at hc
      simp only [hc, Bool.false_eq_true, if_false]
      rw [ih (pushAt sts i ⟨ridx, 0, i⟩)]
      exact pushAt_get_other _ hk

theorem C3_theorem (g : Grammar) (states : Chart) (i j : Nat) (curr : Item) (a : Nat)
    (hcurr : stateGet states i j = some curr)
    (helem : elemAt g curr.rule curr.pos = some (.sym a)) :
    ((predictStep g states i j)[i]?.getD [] =
      (states[i]?.getD []) ++
        ((List.range g.length).filter (fun ridx =>
          !(curr.pos == 0 && (states[i]?.getD []).any (fun it => it.rule == ridx)))).map
          (fun ridx => (⟨ridx, 0, i⟩ : Item))) ∧
    (∀ k, k ≠ i → (predictStep g states i j)[k]? = states[k]?) := by
  obtain ⟨L, hL⟩ := stateGet_some_state hcurr
  constructor
  · simp only [predictStep, hcurr, helem]
    have := predict_fold_aux i curr.pos L (List.range g.length) states []
      (by simpa using hL) (List.nodup_range _) (by simp)
    simp only [List.append_nil] at this
    rw [this, hL]
    simp
  · intro k hk
    simp only [predictStep, hcurr, helem]
    exact predict_fold_other i curr.pos (List.range g.length) k hk states

/-- Witness for `C3_theorem` at a concrete predicting configuration. -/
theorem C3_witness :
    ((predictStep [⟨0, [.str "a", .sym 2]⟩, ⟨1, [.str "a", .sym 2]⟩, ⟨2, [.str "a"]⟩]
        [[], [⟨0, 1, 0⟩, ⟨2, 0, 1⟩], []] 1 0)[1]?.getD [] =
      (([[], [⟨0, 1, 0⟩, ⟨2, 0, 1⟩], []] : Chart)[1]?.getD []) ++
        ((List.range 3).filter (fun ridx =>
          !((1 : Nat) == 0 && (([[], [⟨0, 1, 0⟩, ⟨2, 0, 1⟩], []] : Chart)[1]?.getD []).any
            (fun it => it.rule == ridx)))).map
          (fun ridx => (⟨ridx, 0, 1⟩ : Item))) ∧
    (∀ k, k ≠ 1 →
      (predictStep [⟨0, [.str "a", .sym 2]⟩, ⟨1, [.str "a", .sym 2]⟩, ⟨2, [.str "a"]⟩]
        [[], [⟨0, 1, 0⟩, ⟨2, 0, 1⟩], []] 1 0)[k]? =
        ([[], [⟨0, 1, 0⟩, ⟨2, 0, 1⟩], []] : Chart)[k]?) :=
  C3_theorem [⟨0, [.str "a", .sym 2]⟩, ⟨1, [.str "a", .sym 2]⟩, ⟨2, [.str "a"]⟩]
    [[], [⟨0, 1, 0⟩, ⟨2, 0, 1⟩], []] 1 0 ⟨0, 1, 0⟩ 2 rfl rfl

/-! ## Root selection (claim C6) -/

theorem rootPick_go (step : Option Item → Item → Option Item)
    (hstep : ∀ b c, step (some b) c = if b.origin < c.origin then some c else some b) :
    ∀ (l : List Item) (b : Item), ∃ r, l.foldl step (some b) = some r ∧
      (r = b ∨ r ∈ l) ∧ b.origin ≤ r.origin ∧ ∀ x ∈ l, x.origin ≤ r.origin := by
  intro l
  induction l with
  | nil => intro b; exact ⟨b, rfl, Or.inl rfl, le_refl _, by simp⟩
  | cons c rest ih =>
    intro b
    simp only [List.foldl_cons, hstep]
    by_cases hlt : b.origin < c.origin
    · rw [if_pos hlt]
      obtain ⟨r, hr, hmem, hle, hall⟩ := ih c
      refine ⟨r, hr, ?_, by omega, ?_⟩
      · rcases hmem with rfl | hm
        · exact Or.inr (List.mem_cons_self _ _)
        · exact Or.inr (List.mem_cons_of_mem _ hm)
      · intro x hx
        rcases List.mem_cons.mp hx with rfl | hm
        · omega
        · exact hall x hm
    · rw [if_neg hlt]
      obtain ⟨r, hr, hmem, hle, hall⟩ := ih b
      refine ⟨r, hr, ?_, hle, ?_⟩
      · rcases hmem with rfl | hm
        · exact Or.inl rfl
        · exact Or.inr (List.mem_cons_of_mem _ hm)
      · intro x hx
        rcases List.mem_cons.mp hx with rfl | hm
        · omega
        · exact hall x hm

theorem rootPick_nil : rootPick [] = none := rfl

theorem rootPick_spec (s0 : List Item) (hne : s0 ≠ []) :
    ∃ root, rootPick s0 = some root ∧ root ∈ s0 ∧ ∀ x ∈ s0, x.origin ≤ root.origin := by
  cases s0 with
  | nil => exact absurd rfl hne
  | cons c rest =>
    obtain ⟨r, hr, hmem, hle, hall⟩ := rootPick_go
      (fun best c => match best with
        | none => some c
        | some b => if b.origin < c.origin then some c else some b)
      (fun _ _ => rfl) rest c
    refine ⟨r, hr, ?_, ?_⟩
    · rcases hmem with rfl | hm
      · exact List.mem_cons_self _ _
      · exact List.mem_cons_of_mem _ hm
    · intro x hx
      rcases List.mem_cons.mp hx with rfl | hm
      · exact hle
      · exact hall x hm

/-- Claim C6: the extractor's root selection picks from the transformed
state `S'[0]` an item with the largest end position (the re-purposed
`origin` field); on an empty `S'[0]` it fails naming `tokens[0]`; when
the chosen item's end is not `n` it fails naming `tokens[k]` at the
largest end `k`. -/
theorem C6_theorem (g : Grammar) (tokens : List String) (states : Chart) (σ : RegexSt)
    (fuel : Nat) (s0 : List Item) (h0 : states[0]? = some s0) :
    (s0 = [] → dfs g tokens states σ fuel = .error (.syntaxError 0 (tokens[0]?))) ∧
    (s0 ≠ [] → ∃ root, rootPick s0 = some root ∧ root ∈ s0 ∧
      (∀ x ∈ s0, x.origin ≤ root.origin) ∧
      (root.origin ≠ tokens.length →
        dfs g tokens states σ fuel =
          .error (.syntaxError root.origin (tokens[root.origin]?)))) := by
  constructor
  · rintro rfl
    simp only [dfs, h0, rootPick_nil]
  · intro hne
    obtain ⟨root, hr, hmem, hall⟩ := rootPick_spec s0 hne
    refine ⟨root, hr, hmem, hall, ?_⟩
    intro hnotn
    simp only [dfs, h0, hr, if_pos hnotn]

/-- Witness for `C6_theorem`: an empty transformed state 0 fails naming
`tokens[0]`; a short root (end 2 ≠ n = 1) fails naming `tokens[2]`. -/
theorem C6_witness :
    (dfs [] ["a"] [[]] [] 5 = .error (.syntaxError 0 (some "a"))) ∧
    (∃ root, rootPick [(⟨0, 2, 2⟩ : Item)] = some root ∧
      root ∈ [(⟨0, 2, 2⟩ : Item)] ∧
      (∀ x ∈ [(⟨0, 2, 2⟩ : Item)], x.origin ≤ root.origin) ∧
      (root.origin ≠ List.length ["a"] →
        dfs [] ["a"] [[⟨0, 2, 2⟩]] [] 5 =
          .error (.syntaxError root.origin (["a"][root.origin]?)))) :=
  ⟨(C6_theorem [] ["a"] [[]] [] 5 [] rfl).1 rfl,
   (C6_theorem [] ["a"] [[⟨0, 2, 2⟩]] [] 5 [⟨0, 2, 2⟩] rfl).2 (by simp)⟩

theorem elemAt_some_lt {g : Grammar} {r d : Nat} {e : RhsElem}
    (h : elemAt g r d = some e) : d < ruleLen g r := by
  rw [elemAt, Option.bind_eq_some] at h
  obtain ⟨ru, hru, hd⟩ := h
  have hlt := (List.getElem?_eq_some.mp hd).1
  simpa [ruleLen, hru] using hlt

theorem chartInv_pushAt {g : Grammar} {states : Chart} {i : Nat} {x : Item}
    (hinv : ChartInv g states) (ho : x.origin ≤ i) (hp : x.pos ≤ ruleLen g x.rule) :
    ChartInv g (pushAt states i x) := by
  intro k L hk y hy
  by_cases hki : k = i
  · subst hki
    cases hL : states[k]? with
    | none =>
      have hlen : states.length ≤ k := by
        rw [List.getElem?_eq_none_iff] at hL
        exact hL
      rw [pushAt, List.set_eq_of_length_le hlen, hL] at hk
      simp at hk
    | some L0 =>
      rw [pushAt_get_self x hL] at hk
      cases hk
      rcases List.mem_append.mp hy with h1 | h2
      · exact hinv k L0 hL y h1
      · simp only [List.mem_singleton] at h2
        subst h2
        exact ⟨ho, hp⟩
  · rw [pushAt_get_other x hki] at hk
    exact hinv k L hk y hy

theorem chartInv_init (g : Grammar) (tokens : List String) :
    ChartInv g (initChart g tokens) := by
  intro i L hk y hy
  rw [initChart] at hk
  by_cases h0 : i = 0
  · subst h0
    rw [List.getElem?_set_self (by simp)] at hk
    cases hk
    obtain ⟨ridx, _, rfl⟩ := List.mem_map.mp hy
    exact ⟨le_refl _, by simp⟩
  · rw [List.getElem?_set_ne (Ne.symm h0)] at hk
    have hmem := List.getElem?_mem hk
    rcases List.eq_of_mem_replicate hmem with rfl
    simp at hy

theorem predict_fold_inv {g : Grammar} {i : Nat} (currPos : Nat) :
    ∀ (rl : List Nat) (sts : Chart), ChartInv g sts →
      ChartInv g (rl.foldl (fun s ridx =>
        let hasIt := currPos == 0 && (s[i]?.getD []).any (fun it => it.rule == ridx)
        if hasIt then s else pushAt s i ⟨ridx, 0, i⟩) sts) := by
  intro rl
  induction rl with
  | nil => intro sts h; exact h
  | cons ridx rest ih =>
    intro sts h
    simp only [List.foldl_cons]
    by_cases hc : (currPos == 0 && (sts[i]?.getD []).any (fun it => it.rule == ridx)) = true
    · simp only [hc, if_true]
      exact ih sts h
    · rw [Bool.not_eq_true] at hc
      simp only [hc, Bool.false_eq_true, if_false]
      exact ih _ (chartInv_pushAt h (le_refl _) (by simp))

theorem chartInv_predict {g : Grammar} {states : Chart} {i j : Nat}
    (hinv : ChartInv g states) : ChartInv g (predictStep g states i j) := by
  cases hget : stateGet states i j with
  | none => simpa [predictStep, hget] using hinv
  | some curr =>
    cases helem : elemAt g curr.rule curr.pos with
    | none => simpa [predictStep, hget, helem] using hinv
    | some e =>
      cases e with
      | sym a =>
        simp only [predictStep, hget, helem]
        exact predict_fold_inv curr.pos (List.range g.length) states hinv
      | str lit => simpa [predictStep, hget, helem] using hinv
      | pat p => simpa [predictStep, hget, helem] using hinv

theorem chartInv_scan {g : Grammar} {tokens : List String} {states s' : Chart}
    {i j : Nat} {σ σ' : RegexSt} (hinv : ChartInv g states)
    (h : scanStep g tokens states i j σ = .ok (s', σ')) : ChartInv g s' := by
  cases hget : stateGet states i j with
  | none =>
    simp only [scanStep, hget, Except.ok.injEq, Prod.mk.injEq] at h
    rw [← h.1]
    exact hinv
  | some curr =>
    obtain ⟨L, hL⟩ := stateGet_some_state hget
    have hcm := stateGet_mem hget hL
    have hoi : curr.origin ≤ i := (hinv i L hL curr hcm).1
    cases helem : elemAt g curr.rule curr.pos with
    | none =>
      simp only [scanStep, hget, helem, Except.ok.injEq, Prod.mk.injEq] at h
      rw [← h.1]; exact hinv
    | some e =>
      have hpos : curr.pos < ruleLen g curr.rule := elemAt_some_lt helem
      cases e with
      | sym a =>
        simp only [scanStep, hget, helem, Except.ok.injEq, Prod.mk.injEq] at h
        rw [← h.1]; exact hinv
      | str lit =>
        simp only [scanStep, hget, helem] at h
        split at h
        · split at h
          · simp only [Except.ok.injEq, Prod.mk.injEq] at h
            rw [← h.1]
            exact chartInv_pushAt hinv (by simp; omega) (by simp; omega)
          · simp at h
        · simp only [Except.ok.injEq, Prod.mk.injEq] at h
          rw [← h.1]; exact hinv
      | pat p =>
        simp only [scanStep, hget, helem] at h
        split at h
        · split at h
          · simp only [Except.ok.injEq, Prod.mk.injEq] at h
            rw [← h.1]
            exact chartInv_pushAt hinv (by simp; omega) (by simp; omega)
          · simp at h
        · simp only [Except.ok.injEq, Prod.mk.injEq] at h
          rw [← h.1]; exact hinv

theorem complete_fold_inv {g : Grammar} {i : Nat} (lhs : Option Nat) :
    ∀ (snap : List Item) (sts : Chart), ChartInv g sts →
      (∀ ei ∈ snap, ei.origin ≤ i) →
      ChartInv g (snap.foldl (fun sts2 ei =>
        match elemAt g ei.rule ei.pos, lhs with
        | some (.sym s), some l =>
          if s == l then
            let dup := (sts2[i]?.getD []).any (fun x =>
              x.rule == ei.rule && x.pos == ei.pos + 1 && x.origin == ei.origin)
            if dup then sts2 else pushAt sts2 i ⟨ei.rule, ei.pos + 1, ei.origin⟩
          else sts2
        | _, _ => sts2) sts) := by
  intro snap
  induction snap with
  | nil => intro sts h _; exact h
  | cons ei rest ih =>
    intro sts h hall
    simp only [List.foldl_cons]
    have hrest : ∀ x ∈ rest, x.origin ≤ i :=
      fun x hx => hall x (List.mem_cons_of_mem _ hx)
    cases helem : elemAt g ei.rule ei.pos with
    | none => exact ih sts h hrest
    | some e =>
      cases e with
      | str lit => exact ih sts h hrest
      | pat p => exact ih sts h hrest
      | sym s =>
        cases lhs with
        | none => exact ih sts h hrest
        | some l =>
          by_cases hsl : (s == l) = true
          · simp only [hsl, if_true]
            by_cases hdup : ((sts[i]?.getD []).any (fun x =>
                x.rule == ei.rule && x.pos == ei.pos + 1 && x.origin == ei.origin)) = true
            · simp only [hdup, if_true]
              exact ih sts h hrest
            · rw [Bool.not_eq_true] at hdup
              simp only [hdup, Bool.false_eq_true, if_false]
              refine ih _ (chartInv_pushAt h (hall ei (List.mem_cons_self _ _)) ?_) hrest
              have := elemAt_some_lt helem
              simpa using this
          · rw [Bool.not_eq_true] at hsl
            simp only [hsl, Bool.false_eq_true, if_false]
            exact ih sts h hrest

theorem chartInv_complete {g : Grammar} {states : Chart} {i j : Nat}
    (hinv : ChartInv g states) : ChartInv g (completeStep g states i j) := by
  cases hget : stateGet states i j with
  | none => simpa [completeStep, hget] using hinv
  | some curr =>
    obtain ⟨L, hL⟩ := stateGet_some_state hget
    have hcm := stateGet_mem hget hL
    have hoi : curr.origin ≤ i := (hinv i L hL curr hcm).1
    by_cases hfin : ruleLen g curr.rule ≤ curr.pos
    · simp only [completeStep, hget, hfin, if_true]
      apply complete_fold_inv (lhsGet g curr.rule) _ states hinv
      intro ei hei
      cases hLo : states[curr.origin]? with
      | none => rw [hLo] at hei; simp at hei
      | some Lo =>
        rw [hLo] at hei
        simp only [Option.getD_some] at hei
        have := (hinv curr.origin Lo hLo ei hei).1
        omega
    · simpa [completeStep, hget, hfin] using hinv

theorem chartInv_earleyGo {g : Grammar} {tokens : List String} :
    ∀ (fuel : Nat) (states : Chart) (i j : Nat) (σ : RegexSt) (res : Chart × RegexSt),
      ChartInv g states → earleyGo g tokens fuel states i j σ = .ok res →
      ChartInv g res.1 := by
  intro fuel
  induction fuel with
  | zero => intro states i j σ res _ h; simp [earleyGo] at h
  | succ f ih =>
    intro states i j σ res hinv h
    rw [earleyGo] at h
    by_cases hi : tokens.length < i
    · rw [if_pos hi] at h
      cases h
      exact hinv
    · rw [if_neg hi] at h
      by_cases hj : (states[i]?.getD []).length ≤ j
      · rw [if_pos hj] at h
        exact ih states (i + 1) 0 σ res hinv h
      · rw [if_neg hj] at h
        simp only at h
        cases hscan : scanStep g tokens (predictStep g states i j) i j σ with
        | error e => rw [hscan] at h; simp at h
        | ok pr =>
          rw [hscan] at h
          simp only at h
          exact ih _ i (j + 1) pr.2 res
            (chartInv_complete (chartInv_scan (chartInv_predict hinv) (by
              rw [hscan]))) h

/-- Claim C7: the chart invariant `0 ≤ o ≤ i`, `0 ≤ d ≤ r.rhs.length` for
every item `(r, d, o)` in state `i` holds of the seeded chart and is
preserved by predict, by every non-crashing scan, by complete, and hence
by the whole saturation loop — so it holds at any point during
recognition. -/
theorem C7_theorem (g : Grammar) (tokens : List String) :
    (ChartInv g (initChart g tokens)) ∧
    (∀ states i j, ChartInv g states → ChartInv g (predictStep g states i j)) ∧
    (∀ states s' i j σ σ', ChartInv g states →
      scanStep g tokens states i j σ = .ok (s', σ') → ChartInv g s') ∧
    (∀ states i j, ChartInv g states → ChartInv g (completeStep g states i j)) ∧
    (∀ fuel states i j σ res, ChartInv g states →
      earleyGo g tokens fuel states i j σ = .ok res → ChartInv g res.1) :=
  ⟨chartInv_init g tokens,
   fun _ _ _ h => chartInv_predict h,
   fun _ _ _ _ _ _ h hs => chartInv_scan h hs,
   fun _ _ _ h => chartInv_complete h,
   fun _ _ _ _ _ _ h he => chartInv_earleyGo _ _ _ _ _ _ h he⟩

/-- Witness for `C7_theorem`: the invariant holds concretely after seeding
and one predict step on the one-rule grammar `S → 'a'`. -/
theorem C7_witness :
    ChartInv [⟨0, [.str "a"]⟩]
      (predictStep [⟨0, [.str "a"]⟩] (initChart [⟨0, [.str "a"]⟩] ["a"]) 0 0) :=
  (C7_theorem [⟨0, [.str "a"]⟩] ["a"]).2.1 _ 0 0 (C7_theorem [⟨0, [.str "a"]⟩] ["a"]).1

/-! ## Length preservation of the recogniser steps -/

theorem foldl_chart_length {β : Type} (f : Chart → β → Chart)
    (hf : ∀ sts b, (f sts b).length = sts.length) :
    ∀ (l : List β) (sts : Chart), (l.foldl f sts).length = sts.length := by
  intro l
  induction l with
  | nil => intro _; rfl
  | cons b rest ih => intro sts; rw [List.foldl_cons, ih, hf]

theorem predictStep_length (g : Grammar) (states : Chart) (i j : Nat) :
    (predictStep g states i j).length = states.length := by
  cases hget : stateGet states i j with
  | none => simp [predictStep, hget]
  | some curr =>
    cases helem : elemAt g curr.rule curr.pos with
    | none => simp [predictStep, hget, helem]
    | some e =>
      cases e with
      | sym a =>
        simp only [predictStep, hget, helem]
        apply foldl_chart_length
        intro sts b
        dsimp only
        split
        · rfl
        · exact pushAt_length _ _ _
      | str lit => simp [predictStep, hget, helem]
      | pat p => simp [predictStep, hget, helem]

theorem scanStep_length {g : Grammar} {tokens : List String} {states s' : Chart}
    {i j : Nat} {σ σ' : RegexSt}
    (h : scanStep g tokens states i j σ = .ok (s', σ')) : s'.length = states.length := by
  cases hget : stateGet states i j with
  | none =>
    simp only [scanStep, hget, Except.ok.injEq, Prod.mk.injEq] at h
    rw [← h.1]
  | some curr =>
    cases helem : elemAt g curr.rule curr.pos with
    | none =>
      simp only [scanStep, hget, helem, Except.ok.injEq, Prod.mk.injEq] at h
      rw [← h.1]
    | some e =>
      cases e with
      | sym a =>
        simp only [scanStep, hget, helem, Except.ok.injEq, Prod.mk.injEq] at h
        rw [← h.1]
      | str lit =>
        simp only [scanStep, hget, helem] at h
        split at h
        · split at h
          · simp only [Except.ok.injEq, Prod.mk.injEq] at h
            rw [← h.1]
            exact pushAt_length _ _ _
          · simp at h
        · simp only [Except.ok.injEq, Prod.mk.injEq] at h
          rw [← h.1]
      | pat p =>
        simp only [scanStep, hget, helem] at h
        split at h
        · split at h
          · simp only [Except.ok.injEq, Prod.mk.injEq] at h
            rw [← h.1]
            exact pushAt_length _ _ _
          · simp at h
        · simp only [Except.ok.injEq, Prod.mk.injEq] at h
          rw [← h.1]

theorem completeStep_length (g : Grammar) (states : Chart) (i j : Nat) :
    (completeStep g states i j).length = states.length := by
  cases hget : stateGet states i j with
  | none => simp [completeStep, hget]
  | some curr =>
    by_cases hfin : ruleLen g curr.rule ≤ curr.pos
    · simp only [completeStep, hget, hfin, if_true]
      apply foldl_chart_length
      intro sts ei
      dsimp only
      cases elemAt g ei.rule ei.pos with
      | none => rfl
      | some e =>
        cases e with
        | str lit => rfl
        | pat p => rfl
        | sym s =>
          cases lhsGet g curr.rule with
          | none => rfl
          | some l =>
            dsimp only
            split
            · split
              · rfl
              · exact pushAt_length _ _ _
            · rfl
    · simp [completeStep, hget, hfin]

theorem earleyGo_length {g : Grammar} {tokens : List String} :
    ∀ {fuel : Nat} {states : Chart} {i j : Nat} {σ : RegexSt} {res : Chart × RegexSt},
      earleyGo g tokens fuel states i j σ = .ok res → res.1.length = states.length := by
  intro fuel
  induction fuel with
  | zero => intro states i j σ res h; simp [earleyGo] at h
  | succ f ih =>
    intro states i j σ res h
    rw [earleyGo] at h
    by_cases hi : tokens.length < i
    · rw [if_pos hi] at h
      cases h
      rfl
    · rw [if_neg hi] at h
      by_cases hj : (states[i]?.getD []).length ≤ j
      · rw [if_pos hj] at h
        exact ih h
      · rw [if_neg hj] at h
        simp only at h
        cases hscan : scanStep g tokens (predictStep g states i j) i j σ with
        | error e => rw [hscan] at h; simp at h
        | ok pr =>
          rw [hscan] at h
          simp only at h
          have h1 := ih h
          have h2 := scanStep_length hscan
          have h3 := completeStep_length g pr.1 i j
          have h4 := predictStep_length g states i j
          omega

/-! ## The chart transformer (claim C8) -/

theorem pushAt_mem_iff {sts : Chart} {i k : Nat} {x y : Item} :
    y ∈ ((pushAt sts i x)[k]?.getD []) ↔
      y ∈ (sts[k]?.getD []) ∨ (k = i ∧ i < sts.length ∧ y = x) := by
  by_cases hki : k = i
  · subst hki
    by_cases hlt : k < sts.length
    · have hsome : sts[k]? = some sts[k] :=
        (List.getElem?_eq_some_getElem_iff sts k hlt).mpr trivial
      rw [pushAt_get_self x hsome]
      simp only [Option.getD_some, hsome, List.mem_append, List.mem_singleton]
      constructor
      · rintro (h | rfl)
        · exact Or.inl h
        · exact Or.inr ⟨by trivial, hlt, rfl⟩
      · rintro (h | ⟨-, -, rfl⟩)
        · exact Or.inl h
        · exact Or.inr rfl
    · rw [pushAt, List.set_eq_of_length_le (by omega)]
      constructor
      · exact Or.inl
      · rintro (h | ⟨-, hlt2, -⟩)
        · exact h
        · omega
  · rw [pushAt_get_other x hki]
    constructor
    · exact Or.inl
    · rintro (h | ⟨rfl, -, -⟩)
      · exact h
      · exact absurd rfl hki

theorem swap_inner_length (i : Nat) :
    ∀ (st : List Item) (acc : Chart),
      (st.foldl (fun acc2 it => pushAt acc2 it.origin { it with origin := i }) acc).length
        = acc.length := by
  intro st acc
  exact foldl_chart_length _ (fun sts b => pushAt_length _ _ _) st acc

theorem swap_inner_mem (i : Nat) :
    ∀ (st : List Item) (acc : Chart) (k : Nat) (y : Item),
      y ∈ ((st.foldl (fun acc2 it =>
          pushAt acc2 it.origin { it with origin := i }) acc)[k]?.getD []) ↔
        y ∈ (acc[k]?.getD []) ∨
          ∃ it ∈ st, it.origin = k ∧ k < acc.length ∧ y = { it with origin := i } := by
  intro st
  induction st with
  | nil =>
    intro acc k y
    simp
  | cons it rest ih =>
    intro acc k y
    rw [List.foldl_cons, ih, pushAt_mem_iff]
    rw [pushAt_length]
    constructor
    · rintro ((h | ⟨rfl, hlt, rfl⟩) | ⟨it2, hmem, rfl, hlt, rfl⟩)
      · exact Or.inl h
      · exact Or.inr ⟨it, List.mem_cons_self _ _, rfl, hlt, rfl⟩
      · exact Or.inr ⟨it2, List.mem_cons_of_mem _ hmem, rfl, hlt, rfl⟩
    · rintro (h | ⟨it2, hmem, rfl, hlt, rfl⟩)
      · exact Or.inl (Or.inl h)
      · rcases List.mem_cons.mp hmem with rfl | hm
        · exact Or.inl (Or.inr ⟨rfl, hlt, rfl⟩)
        · exact Or.inr ⟨it2, hm, rfl, hlt, rfl⟩

theorem swap_outer_mem :
    ∀ (prs : List (Nat × List Item)) (acc : Chart) (k : Nat) (y : Item),
      y ∈ ((prs.foldl (fun acc pr =>
          pr.2.foldl (fun acc2 it =>
            pushAt acc2 it.origin { it with origin := pr.1 }) acc) acc)[k]?.getD []) ↔
        y ∈ (acc[k]?.getD []) ∨
          ∃ pr ∈ prs, ∃ it ∈ pr.2, it.origin = k ∧ k < acc.length ∧
            y = { it with origin := pr.1 } := by
  intro prs
  induction prs with
  | nil =>
    intro acc k y
    simp
  | cons pr rest ih =>
    intro acc k y
    rw [List.foldl_cons, ih, swap_inner_mem]
    rw [swap_inner_length]
    constructor
    · rintro ((h | ⟨it, hmem, rfl, hlt, rfl⟩) | ⟨pr2, hpr, it, hmem, rfl, hlt, rfl⟩)
      · exact Or.inl h
      · exact Or.inr ⟨pr, List.mem_cons_self _ _, it, hmem, rfl, hlt, rfl⟩
      · exact Or.inr ⟨pr2, List.mem_cons_of_mem _ hpr, it, hmem, rfl, hlt, rfl⟩
    · rintro (h | ⟨pr2, hpr, it, hmem, rfl, hlt, rfl⟩)
      · exact Or.inl (Or.inl h)
      · rcases List.mem_cons.mp hpr with rfl | hm
        · exact Or.inl (Or.inr ⟨it, hmem, rfl, hlt, rfl⟩)
        · exact Or.inr ⟨pr2, hm, it, hmem, rfl, hlt, rfl⟩

theorem swapChart_mem (states : Chart) (k : Nat) (y : Item) :
    y ∈ ((swapChart states)[k]?.getD []) ↔
      ∃ (i : Nat) (st : List Item), states[i]? = some st ∧
        ∃ it ∈ st, it.origin = k ∧ k < states.length ∧
          y = { it with origin := i } := by
  rw [swapChart, swap_outer_mem]
  have hrep : ∀ m : Nat, ((List.replicate states.length ([] : List Item))[m]?.getD []) = [] := by
    intro m
    cases hm : (List.replicate states.length ([] : List Item))[m]? with
    | none => rfl
    | some L =>
      rcases List.eq_of_mem_replicate (List.getElem?_mem hm) with rfl
      rfl
  rw [hrep]
  simp only [List.not_mem_nil, false_or, List.length_replicate]
  constructor
  · rintro ⟨pr, hpr, it, hmem, rfl, hlt, rfl⟩
    exact ⟨pr.1, pr.2, List.mk_mem_enum_iff_getElem?.mp (by simpa using hpr), it, hmem,
      rfl, hlt, rfl⟩
  · rintro ⟨i, st, hst, it, hmem, rfl, hlt, rfl⟩
    exact ⟨(i, st), List.mk_mem_enum_iff_getElem?.mpr hst, it, hmem, rfl, hlt, rfl⟩

theorem swapChart_length (states : Chart) : (swapChart states).length = states.length := by
  rw [swapChart]
  have : ∀ (prs : List (Nat × List Item)) (acc : Chart),
      (prs.foldl (fun acc pr =>
        pr.2.foldl (fun acc2 it =>
          pushAt acc2 it.origin { it with origin := pr.1 }) acc) acc).length = acc.length := by
    intro prs
    induction prs with
    | nil => intro acc; rfl
    | cons pr rest ih => intro acc; rw [List.foldl_cons, ih, swap_inner_length]
  rw [this]
  exact List.length_replicate _ _

theorem removeUnfinished_get (g : Grammar) (states : Chart) (i : Nat) :
    (removeUnfinishedItems g states)[i]? =
      (states[i]?).map (fun st => st.filter (fun it => decide (ruleLen g it.rule ≤ it.pos))) :=
  List.getElem?_map _ _ _

/-- Claim C8: after dropping incomplete items and re-indexing by origin,
membership in the new chart state `k` holds exactly of the complete items
that sat in some state `i` with origin `k`, with their origin rewritten to
`i`; consequently every item of the transformed chart is complete and its
new origin is at least its chart index (given the recogniser invariant
`origin ≤ state`). -/
theorem C8_theorem (g : Grammar) (states : Chart)
    (hinv : ∀ (i : Nat) (L : List Item), states[i]? = some L → ∀ x ∈ L, x.origin ≤ i) :
    (∀ (k : Nat) (y : Item),
      y ∈ ((swapChart (removeUnfinishedItems g states))[k]?.getD []) ↔
        ∃ (i : Nat) (Li : List Item), states[i]? = some Li ∧
          (⟨y.rule, y.pos, k⟩ : Item) ∈ Li ∧ y.origin = i ∧
          ruleLen g y.rule ≤ y.pos) ∧
    (∀ (k : Nat) (y : Item),
      y ∈ ((swapChart (removeUnfinishedItems g states))[k]?.getD []) →
        ruleLen g y.rule ≤ y.pos ∧ k ≤ y.origin) := by
  have hmain : ∀ (k : Nat) (y : Item),
      y ∈ ((swapChart (removeUnfinishedItems g states))[k]?.getD []) ↔
        ∃ (i : Nat) (Li : List Item), states[i]? = some Li ∧
          (⟨y.rule, y.pos, k⟩ : Item) ∈ Li ∧ y.origin = i ∧
          ruleLen g y.rule ≤ y.pos := by
    intro k y
    rw [swapChart_mem]
    constructor
    · rintro ⟨i, st', hst', it, hmem, horig, hlt, rfl⟩
      rw [removeUnfinished_get, Option.map_eq_some'] at hst'
      obtain ⟨Li, hLi, rfl⟩ := hst'
      rw [List.mem_filter] at hmem
      obtain ⟨hmem, hcomp⟩ := hmem
      rw [decide_eq_true_eq] at hcomp
      refine ⟨i, Li, hLi, ?_, rfl, hcomp⟩
      show (⟨it.rule, it.pos, k⟩ : Item) ∈ Li
      rw [← horig]
      exact hmem
    · rintro ⟨i, Li, hLi, hmem, horig, hcomp⟩
      refine ⟨i, Li.filter (fun it => decide (ruleLen g it.rule ≤ it.pos)),
        ?_, ⟨y.rule, y.pos, k⟩, ?_, ?_, ?_, ?_⟩
      · rw [removeUnfinished_get, hLi]
        rfl
      · rw [List.mem_filter]
        exact ⟨hmem, by simpa using hcomp⟩
      · rfl
      · show k < (removeUnfinishedItems g states).length
        rw [removeUnfinishedItems, List.length_map]
        have hi : i < states.length := (List.getElem?_eq_some.mp hLi).1
        have hok : k ≤ i := hinv i Li hLi _ hmem
        omega
      · cases y with
        | mk yr yp yo =>
          simp only at horig
          simp only [horig]
  refine ⟨hmain, ?_⟩
  intro k y hy
  obtain ⟨i, Li, hLi, hmem, horig, hcomp⟩ := (hmain k y).mp hy
  refine ⟨hcomp, ?_⟩
  have hok : k ≤ i := hinv i Li hLi _ hmem
  omega

/-- Witness for `C8_theorem`: on the grammar `S → 'a'` and a two-state
chart, the transformed item `(S → 'a'·, end 1)` in state 0 is complete
with new origin 1 ≥ 0. -/
theorem C8_witness :
    ruleLen [⟨0, [.str "a"]⟩] 0 ≤ 1 ∧ (0 : Nat) ≤ 1 :=
  (C8_theorem [⟨0, [.str "a"]⟩] [[⟨0, 0, 0⟩], [⟨0, 1, 0⟩]] (by
    intro i L h x hx
    rcases i with _ | _ | i
    · simp only [List.getElem?_cons_zero, Option.some.injEq] at h
      subst h
      simp only [List.mem_singleton] at hx
      subst hx
      exact Nat.le_refl 0
    · simp only [List.getElem?_cons_succ, List.getElem?_cons_zero, Option.some.injEq] at h
      subst h
      simp only [List.mem_singleton] at hx
      subst hx
      exact Nat.zero_le 1
    · simp at h)).2 0 ⟨0, 1, 1⟩ (by decide)

theorem noGlobal_elem {g : Grammar} {ridx d : Nat} {p : Pattern}
    (hng : noGlobal g = true) (h : elemAt g ridx d = some (.pat p)) :
    p.glob = false := by
  rw [elemAt, Option.bind_eq_some] at h
  obtain ⟨ru, hru, hd⟩ := h
  have hmem : ru ∈ g := List.getElem?_mem hru
  have hemem : RhsElem.pat p ∈ ru.rhs := List.getElem?_mem hd
  rw [noGlobal, List.all_eq_true] at hng
  have := (List.all_eq_true.mp (hng ru hmem)) _ hemem
  simpa using this

theorem jsTest_nonglobal {σ : RegexSt} {p : Pattern} {t : String}
    (hng : p.glob = false) : (jsTest σ p t).2 = σ := by
  rw [jsTest, hng]
  simp

theorem scanStep_sigma {g : Grammar} {tokens : List String} {states s' : Chart}
    {i j : Nat} {σ σ' : RegexSt} (hng : noGlobal g = true)
    (h : scanStep g tokens states i j σ = .ok (s', σ')) : σ' = σ := by
  cases hget : stateGet states i j with
  | none =>
    simp only [scanStep, hget, Except.ok.injEq, Prod.mk.injEq] at h
    exact h.2.symm
  | some curr =>
    cases helem : elemAt g curr.rule curr.pos with
    | none =>
      simp only [scanStep, hget, helem, Except.ok.injEq, Prod.mk.injEq] at h
      exact h.2.symm
    | some e =>
      cases e with
      | sym a =>
        simp only [scanStep, hget, helem, Except.ok.injEq, Prod.mk.injEq] at h
        exact h.2.symm
      | str lit =>
        simp only [scanStep, hget, helem] at h
        split at h
        · split at h
          · simp only [Except.ok.injEq, Prod.mk.injEq] at h
            exact h.2.symm
          · simp at h
        · simp only [Except.ok.injEq, Prod.mk.injEq] at h
          exact h.2.symm
      | pat p =>
        have hpg : p.glob = false := noGlobal_elem hng helem
        have hσ : (jsTest σ p (tokAt tokens i)).2 = σ := jsTest_nonglobal hpg
        simp only [scanStep, hget, helem] at h
        split at h
        · split at h
          · simp only [Except.ok.injEq, Prod.mk.injEq] at h
            rw [← h.2, hσ]
          · simp at h
        · simp only [Except.ok.injEq, Prod.mk.injEq] at h
          rw [← h.2, hσ]

theorem earleyGo_sigma {g : Grammar} {tokens : List String} (hng : noGlobal g = true) :
    ∀ {fuel : Nat} {states : Chart} {i j : Nat} {σ : RegexSt} {res : Chart × RegexSt},
      earleyGo g tokens fuel states i j σ = .ok res → res.2 = σ := by
  intro fuel
  induction fuel with
  | zero => intro states i j σ res h; simp [earleyGo] at h
  | succ f ih =>
    intro states i j σ res h
    rw [earleyGo] at h
    by_cases hi : tokens.length < i
    · rw [if_pos hi] at h
      cases h
      rfl
    · rw [if_neg hi] at h
      by_cases hj : (states[i]?.getD []).length ≤ j
      · rw [if_pos hj] at h
        exact ih h
      · rw [if_neg hj] at h
        simp only at h
        cases hscan : scanStep g tokens (predictStep g states i j) i j σ with
        | error e => rw [hscan] at h; simp at h
        | ok pr =>
          rw [hscan] at h
          simp only at h
          have h1 := ih h
          have h2 : pr.2 = σ := scanStep_sigma hng (by rw [hscan])
          rw [h1, h2]

theorem earleyS_sigma {g : Grammar} {tokens : List String} {σ σ' : RegexSt}
    {chart : Chart} {fuel : Nat} (hng : noGlobal g = true)
    (h : earleyS g tokens σ fuel = .ok (chart, σ')) : σ' = σ := by
  rw [earleyS] at h
  cases hgo : earleyGo g tokens fuel (initChart g tokens) 0 0 σ with
  | error e => rw [hgo] at h; simp at h
  | ok pr =>
    rw [hgo] at h
    simp only [Except.ok.injEq, Prod.mk.injEq] at h
    rw [← h.2]
    exact earleyGo_sigma hng hgo

theorem candStep_error (h1 h2 : Item → RegexSt → Except JsErr (Option (List PChild) × RegexSt))
    (e : JsErr) (c : Item) : candStep h1 h2 (.error e) c = .error e := rfl

theorem candFold_error (h1 h2 : Item → RegexSt → Except JsErr (Option (List PChild) × RegexSt))
    (l : List Item) (e : JsErr) :
    l.foldl (candStep h1 h2) (.error e) = .error e := by
  induction l with
  | nil => rfl
  | cons c rest ih => rw [List.foldl_cons, candStep_error]; exact ih

theorem candFold_shift (h1 h2 : Item → RegexSt → Except JsErr (Option (List PChild) × RegexSt)) :
    ∀ (l : List Item) (es : List (List PChild)) (σ : RegexSt),
      l.foldl (candStep h1 h2) (.ok (es, σ)) =
        match l.foldl (candStep h1 h2) (.ok ([], σ)) with
        | .error e => .error e
        | .ok pr => .ok (es ++ pr.1, pr.2) := by
  intro l
  induction l with
  | nil => intro es σ; simp
  | cons c rest ih =>
    intro es σ
    rw [List.foldl_cons, List.foldl_cons]
    show rest.foldl (candStep h1 h2) (candStep h1 h2 (.ok (es, σ)) c) = _
    rw [candStep, candStep]
    cases hh1 : h1 c σ with
    | error e => simp only [candFold_error]
    | ok sub =>
      cases hs : sub.1 with
      | none =>
        simp only [hs]
        exact ih es sub.2
      | some L =>
        simp only [hs]
        cases hh2 : h2 c sub.2 with
        | error e => simp only [candFold_error]
        | ok kids =>
          simp only [List.nil_append]
          rw [ih (es ++ [PChild.node (PTree.mk c.rule kids.1) :: L]) kids.2,
            ih [PChild.node (PTree.mk c.rule kids.1) :: L] kids.2]
          cases rest.foldl (candStep h1 h2) (.ok ([], kids.2)) with
          | error e => rfl
          | ok pr => simp

theorem dfsCands_nil (g : Grammar) (tokens : List String) (states : Chart)
    (f : Nat) (root : Item) (state depth : Nat) (σ : RegexSt) :
    dfsCands g tokens states f root state depth [] σ = .ok ([], σ) := rfl

theorem dfsCands_cons (g : Grammar) (tokens : List String) (states : Chart)
    (f : Nat) (root : Item) (state depth : Nat) (c : Item) (rest : List Item)
    (σ : RegexSt) :
    dfsCands g tokens states f root state depth (c :: rest) σ =
      match dfsHelper g tokens states f root c.origin (depth + 1) σ with
      | .error e => .error e
      | .ok (none, σ1) => dfsCands g tokens states f root state depth rest σ1
      | .ok (some L, σ1) =>
        match dfsHelper g tokens states f c state 0 σ1 with
        | .error e => .error e
        | .ok (kids, σ2) =>
          match dfsCands g tokens states f root state depth rest σ2 with
          | .error e => .error e
          | .ok (entries, σ3) => .ok ((PChild.node (.mk c.rule kids) :: L) :: entries, σ3) := by
  rw [dfsCands, dfsCandsF, List.foldl_cons]
  show List.foldl _ (candStep _ _ (.ok ([], σ)) c) rest = _
  rw [candStep]
  cases hh1 : dfsHelper g tokens states f root c.origin (depth + 1) σ with
  | error e => simp only [candFold_error]
  | ok sub =>
    obtain ⟨s1, σ1⟩ := sub
    cases s1 with
    | none =>
      simp only
      rfl
    | some L =>
      simp only
      cases hh2 : dfsHelper g tokens states f c state 0 σ1 with
      | error e => simp only [candFold_error]
      | ok kids =>
        obtain ⟨kk, σ2⟩ := kids
        simp only [List.nil_append]
        rw [candFold_shift]
        rw [dfsCands, dfsCandsF]
        cases rest.foldl _ (Except.ok ([], σ2)) with
        | error e => rfl
        | ok pr => rfl

theorem dfsCandsF_eq (g : Grammar) (tokens : List String) (states : Chart)
    (f : Nat) (root : Item) (state depth : Nat) (cands : List Item) (σ : RegexSt) :
    dfsCandsF (fun c σ0 => dfsHelper g tokens states f root c.origin (depth + 1) σ0)
      (fun c σ1 => dfsHelper g tokens states f c state 0 σ1) cands σ =
    dfsCands g tokens states f root state depth cands σ := rfl

theorem dfsCands_sigma_of {g : Grammar} {tokens : List String} {states : Chart}
    (f : Nat)
    (HP : ∀ root state depth σ res,
      dfsHelper g tokens states f root state depth σ = .ok res → res.2 = σ) :
    ∀ (cands : List Item) (root : Item) (state depth : Nat) (σ : RegexSt)
      (res : List (List PChild) × RegexSt),
      dfsCands g tokens states f root state depth cands σ = .ok res → res.2 = σ := by
  intro cands
  induction cands with
  | nil =>
    intro root state depth σ res h
    rw [dfsCands_nil] at h
    simp only [Except.ok.injEq] at h
    rw [← h]
  | cons c rest ih =>
    intro root state depth σ res h
    rw [dfsCands_cons] at h
    cases h1 : dfsHelper g tokens states f root c.origin (depth + 1) σ with
    | error e => rw [h1] at h; simp at h
    | ok pr1 =>
      rw [h1] at h
      have hσ1 : pr1.2 = σ := HP _ _ _ _ _ h1
      obtain ⟨sub1, σ1⟩ := pr1
      cases sub1 with
      | none =>
        simp only at h
        rw [ih _ _ _ _ _ h]
        exact hσ1
      | some L =>
        simp only at h
        cases h2 : dfsHelper g tokens states f c state 0 σ1 with
        | error e => rw [h2] at h; simp at h
        | ok pr2 =>
          rw [h2] at h
          obtain ⟨kids, σ2⟩ := pr2
          simp only at h
          cases h3 : dfsCands g tokens states f root state depth rest σ2 with
          | error e => rw [h3] at h; simp at h
          | ok pr3 =>
            rw [h3] at h
            obtain ⟨entries, σ3⟩ := pr3
            simp only [Except.ok.injEq] at h
            rw [← h]
            have e3 : σ3 = σ2 := by
              have := ih _ _ _ _ _ h3
              simpa using this
            have e2 : σ2 = σ1 := by
              have := HP _ _ _ _ _ h2
              simpa using this
            simp only at hσ1
            rw [e3, e2, hσ1]

theorem dfsHelper_sigma {g : Grammar} {tokens : List String} {states : Chart}
    (hng : noGlobal g = true) :
    ∀ (f : Nat) (root : Item) (state depth : Nat) (σ : RegexSt)
      (res : Option (List PChild) × RegexSt),
      dfsHelper g tokens states f root state depth σ = .ok res → res.2 = σ := by
  intro f
  induction f with
  | zero =>
    intro root state depth σ res h
    simp [dfsHelper] at h
  | succ f ih =>
    have HC := dfsCands_sigma_of f ih
    intro root state depth σ res h
    rw [dfsHelper] at h
    split at h
    · simp only [Except.ok.injEq] at h
      rw [← h]
    · cases helem : elemAt g root.rule depth with
      | some e =>
        cases e with
        | pat p =>
          rw [helem] at h
          simp only at h
          have hpg : p.glob = false := noGlobal_elem hng helem
          have hbr : (jsTest σ p (tokAt tokens state)).2 = σ := jsTest_nonglobal hpg
          split at h
          · cases h1 : dfsHelper g tokens states f root (state + 1) (depth + 1)
                (jsTest σ p (tokAt tokens state)).2 with
            | error e => rw [h1] at h; simp at h
            | ok pr1 =>
              rw [h1] at h
              have hσ1 : pr1.2 = (jsTest σ p (tokAt tokens state)).2 := ih _ _ _ _ _ h1
              obtain ⟨sub1, σ1⟩ := pr1
              cases sub1 with
              | some L =>
                simp only [Except.ok.injEq] at h
                rw [← h]
                simp only at hσ1
                rw [hσ1, hbr]
              | none =>
                simp only [Except.ok.injEq] at h
                rw [← h]
                simp only at hσ1
                rw [hσ1, hbr]
          · simp only [Except.ok.injEq] at h
            rw [← h]
            exact hbr
        | str lit =>
          rw [helem] at h
          simp only at h
          split at h
          · cases h1 : dfsHelper g tokens states f root (state + 1) (depth + 1) σ with
            | error e => rw [h1] at h; simp at h
            | ok pr1 =>
              rw [h1] at h
              have hσ1 : pr1.2 = σ := ih _ _ _ _ _ h1
              obtain ⟨sub1, σ1⟩ := pr1
              cases sub1 with
              | some L =>
                simp only [Except.ok.injEq] at h
                rw [← h]
                simpa using hσ1
              | none =>
                simp only [Except.ok.injEq] at h
                rw [← h]
                simpa using hσ1
          · simp only [Except.ok.injEq] at h
            rw [← h]
        | sym a =>
          rw [helem] at h
          simp only at h
          cases hst : states[state]? with
          | none => rw [hst] at h; simp at h
          | some stateList =>
            rw [hst] at h
            simp only at h
            rw [dfsCandsF_eq] at h
            cases h1 : dfsCands g tokens states f root state depth
                (stateList.filter (fun c =>
                  match some (RhsElem.sym a) with
                  | some (.sym a) => lhsGet g c.rule == some a
                  | _ => false)) σ with
            | error e => rw [h1] at h; simp at h
            | ok pr1 =>
              rw [h1] at h
              simp only [Except.ok.injEq] at h
              rw [← h]
              exact HC _ _ _ _ _ _ h1
      | none =>
        rw [helem] at h
        simp only at h
        cases hst : states[state]? with
        | none => rw [hst] at h; simp at h
        | some stateList =>
          rw [hst] at h
          simp only at h
          rw [dfsCandsF_eq] at h
          cases h1 : dfsCands g tokens states f root state depth
              (stateList.filter (fun c =>
                match (none : Option RhsElem) with
                | some (.sym a) => lhsGet g c.rule == some a
                | _ => false)) σ with
          | error e => rw [h1] at h; simp at h
          | ok pr1 =>
            rw [h1] at h
            simp only [Except.ok.injEq] at h
            rw [← h]
            exact HC _ _ _ _ _ _ h1

theorem dfs_sigma {g : Grammar} {tokens : List String} {states : Chart}
    {σ σ' : RegexSt} {T : PTree} {fuel : Nat} (hng : noGlobal g = true)
    (h : dfs g tokens states σ fuel = .ok (T, σ')) : σ' = σ := by
  rw [dfs] at h
  cases h0 : states[0]? with
  | none => rw [h0] at h; simp at h
  | some s0 =>
    rw [h0] at h
    simp only at h
    cases hr : rootPick s0 with
    | none => rw [hr] at h; simp at h
    | some root =>
      rw [hr] at h
      simp only at h
      split at h
      · simp at h
      · cases h1 : dfsHelper g tokens states fuel root 0 0 σ with
        | error e => rw [h1] at h; simp at h
        | ok pr =>
          rw [h1] at h
          simp only [Except.ok.injEq, Prod.mk.injEq] at h
          rw [← h.2]
          have := dfsHelper_sigma hng fuel root 0 0 σ pr h1
          exact this

theorem parseS_sigma {sent : String} {g : Grammar} {σ σ' : RegexSt} {T : PTree}
    {fuel : Nat} (hng : noGlobal g = true)
    (h : parseS sent (some g) none σ fuel = .ok (T, σ')) : σ' = σ := by
  rw [parseS] at h
  simp only [Option.getD_none] at h
  cases htk : tokenizeJs sent (some g) with
  | error e => rw [htk] at h; simp at h
  | ok tokens =>
    rw [htk] at h
    simp only at h
    cases he : earleyS g tokens σ fuel with
    | error e => rw [he] at h; simp at h
    | ok pr =>
      obtain ⟨chart, σ1⟩ := pr
      rw [he] at h
      simp only at h
      have h1 : σ' = σ1 := dfs_sigma hng h
      have h2 : σ1 = σ := earleyS_sigma hng he
      rw [h1, h2]

/-- Claim C5, refuted: with a `g`-flagged pattern terminal the regex
object's persistent `lastIndex` makes two consecutive runs of `parse` on
the identical sentence and grammar return different trees.  Grammar
`S → A; A → /b/g; Q → /ab+/` (rule indices 0,1,2), sentence `"abb"`: run 1
(pristine `lastIndex = 0`) returns the tree rooted at rule `A` and leaves
`lastIndex = 3`; run 2 then fails the scan of `/b/g` (no match at index
≥ 3), so the `A` item never completes and the returned tree is rooted at
rule `Q` instead. -/
theorem C5_counterexample :
    ((parseS "abb" (some [⟨0, [.sym 1]⟩, ⟨1, [.pat ⟨.char 'b', true, 0⟩]⟩,
        ⟨2, [.pat ⟨.cat (.char 'a') (.cat (.char 'b') (.star (.char 'b'))), false, 1⟩]⟩])
        none [] 200).toOption.map (fun pr => (pr.1.ruleIdx, pr.2)) =
      some (1, [(0, 3), (0, 2)])) ∧
    ((parseS "abb" (some [⟨0, [.sym 1]⟩, ⟨1, [.pat ⟨.char 'b', true, 0⟩]⟩,
        ⟨2, [.pat ⟨.cat (.char 'a') (.cat (.char 'b') (.star (.char 'b'))), false, 1⟩]⟩])
        none [(0, 3), (0, 2)] 200).toOption.map (fun pr => pr.1.ruleIdx) =
      some 2) ∧
    (1 : Nat) ≠ 2 := by
  refine ⟨rfl, rfl, by decide⟩

/-- Claim C5 (amended): for a grammar none of whose pattern terminals
carries the `g` flag, `parse` leaves the shared regex state untouched, so
a second run on the identical sentence and grammar starts from the
identical state and returns the identical tree; the extractor's pick
among successful candidates is `edges[0]`, the first in enumeration
order.  (With a `g` flag the persistent `lastIndex` breaks this — see the
counterexample.) -/
theorem C5_theorem (sent : String) (g : Grammar) (σ : RegexSt) (fuel : Nat)
    (hng : noGlobal g = true) (T : PTree) (σ' : RegexSt)
    (hrun : parseS sent (some g) none σ fuel = .ok (T, σ')) :
    σ' = σ ∧ parseS sent (some g) none σ' fuel = .ok (T, σ') := by
  have hσ : σ' = σ := parseS_sigma hng hrun
  subst hσ
  exact ⟨rfl, hrun⟩

/-- Witness for `C5_theorem`: the flag-free grammar `S → 'a'` on sentence
`"a"` parses to the same tree twice, with the regex state unchanged. -/
theorem C5_witness :
    ([] : RegexSt) = [] ∧
      parseS "a" (some [⟨0, [.str "a"]⟩]) none [] 100 =
        .ok (.mk 0 (some [.tok (some "a")]), []) :=
  C5_theorem "a" [⟨0, [.str "a"]⟩] [] 100 rfl (.mk 0 (some [.tok (some "a")])) [] rfl

theorem sliceTok_self (tokens : List String) (s : Nat) : sliceTok tokens s s = [] := by
  simp [sliceTok]

theorem sliceTok_all (tokens : List String) : sliceTok tokens 0 tokens.length = tokens := by
  simp [sliceTok]

theorem sliceTok_cons {tokens : List String} {s e : Nat} {t : String}
    (hse : s < e) (ht : tokens[s]? = some t) :
    sliceTok tokens s e = t :: sliceTok tokens (s + 1) e := by
  have hs : s < tokens.length := (List.getElem?_eq_some.mp ht).1
  have hts : tokens[s] = t := by
    have := (List.getElem?_eq_some.mp ht).2
    simpa using this
  rw [sliceTok, sliceTok, List.drop_eq_getElem_cons hs, hts]
  have : e - s = (e - (s + 1)) + 1 := by omega
  rw [this, List.take_succ_cons]

theorem sliceTok_append {tokens : List String} {s m e : Nat}
    (h1 : s ≤ m) (h2 : m ≤ e) :
    sliceTok tokens s e = sliceTok tokens s m ++ sliceTok tokens m e := by
  rw [sliceTok, sliceTok, sliceTok]
  have he : e - s = (m - s) + (e - m) := by omega
  rw [he, List.take_add, List.drop_drop]
  congr 3
  omega

/-- Every entry produced by the candidate sweep comes from a candidate
whose rest-of-rule match and own expansion both succeeded. -/
theorem dfsCands_entries {g : Grammar} {tokens : List String} {states : Chart}
    (f : Nat) (root : Item) (state depth : Nat) :
    ∀ (cands : List Item) (σ : RegexSt) (entries : List (List PChild)) (σ' : RegexSt),
      dfsCands g tokens states f root state depth cands σ = .ok (entries, σ') →
      ∀ entry ∈ entries, ∃ c ∈ cands, ∃ σa L kids σb σc,
        dfsHelper g tokens states f root c.origin (depth + 1) σa = .ok (some L, σb) ∧
        dfsHelper g tokens states f c state 0 σb = .ok (kids, σc) ∧
        entry = PChild.node (.mk c.rule kids) :: L := by
  intro cands
  induction cands with
  | nil =>
    intro σ entries σ' h entry hentry
    rw [dfsCands_nil] at h
    simp only [Except.ok.injEq, Prod.mk.injEq] at h
    rw [← h.1] at hentry
    simp at hentry
  | cons c rest ih =>
    intro σ entries σ' h entry hentry
    rw [dfsCands_cons] at h
    cases h1 : dfsHelper g tokens states f root c.origin (depth + 1) σ with
    | error e => rw [h1] at h; simp at h
    | ok pr1 =>
      rw [h1] at h
      obtain ⟨sub1, σ1⟩ := pr1
      cases sub1 with
      | none =>
        simp only at h
        obtain ⟨c2, hc2, rest_ex⟩ := ih σ1 entries σ' h entry hentry
        exact ⟨c2, List.mem_cons_of_mem _ hc2, rest_ex⟩
      | some L =>
        simp only at h
        cases h2 : dfsHelper g tokens states f c state 0 σ1 with
        | error e => rw [h2] at h; simp at h
        | ok pr2 =>
          rw [h2] at h
          obtain ⟨kids, σ2⟩ := pr2
          simp only at h
          cases h3 : dfsCands g tokens states f root state depth rest σ2 with
          | error e => rw [h3] at h; simp at h
          | ok pr3 =>
            rw [h3] at h
            obtain ⟨entries3, σ3⟩ := pr3
            simp only [Except.ok.injEq, Prod.mk.injEq] at h
            rw [← h.1] at hentry
            rcases List.mem_cons.mp hentry with rfl | hmem
            · exact ⟨c, List.mem_cons_self _ _, σ, L, kids, σ1, σ2, h1, h2, rfl⟩
            · obtain ⟨c2, hc2, rest_ex⟩ := ih σ2 entries3 σ3 h3 entry hmem
              exact ⟨c2, List.mem_cons_of_mem _ hc2, rest_ex⟩

/-- A successful `dfsHelper` never moves left: the start position is at
most the root item's end position. -/
theorem dfsHelper_state_le {g : Grammar} {tokens : List String} {states : Chart}
    (hb : ChartBound states tokens.length) :
    ∀ (f : Nat) (root : Item) (state depth : Nat) (σ : RegexSt)
      (L : List PChild) (σ' : RegexSt),
      root.origin ≤ tokens.length →
      dfsHelper g tokens states f root state depth σ = .ok (some L, σ') →
      state ≤ root.origin := by
  intro f
  induction f with
  | zero => intro root state depth σ L σ' hro h; simp [dfsHelper] at h
  | succ f ih =>
    intro root state depth σ L σ' hro h
    rw [dfsHelper] at h
    split at h
    · rename_i hcond
      simp only [Bool.and_eq_true, beq_iff_eq] at hcond
      omega
    · cases helem : elemAt g root.rule depth with
      | some e =>
        cases e with
        | pat p =>
          rw [helem] at h
          simp only at h
          split at h
          · cases h1 : dfsHelper g tokens states f root (state + 1) (depth + 1)
                (jsTest σ p (tokAt tokens state)).2 with
            | error e => rw [h1] at h; simp at h
            | ok pr1 =>
              rw [h1] at h
              obtain ⟨sub1, σ1⟩ := pr1
              cases sub1 with
              | some L2 =>
                have := ih root (state + 1) (depth + 1) _ L2 σ1 hro h1
                omega
              | none => simp at h
          · simp at h
        | str lit =>
          rw [helem] at h
          simp only at h
          split at h
          · cases h1 : dfsHelper g tokens states f root (state + 1) (depth + 1) σ with
            | error e => rw [h1] at h; simp at h
            | ok pr1 =>
              rw [h1] at h
              obtain ⟨sub1, σ1⟩ := pr1
              cases sub1 with
              | some L2 =>
                have := ih root (state + 1) (depth + 1) _ L2 σ1 hro h1
                omega
              | none => simp at h
          · simp at h
        | sym a =>
          rw [helem] at h
          simp only at h
          cases hst : states[state]? with
          | none => rw [hst] at h; simp at h
          | some stateList =>
            rw [hst] at h
            simp only at h
            rw [dfsCandsF_eq] at h
            cases h1 : dfsCands g tokens states f root state depth
                (stateList.filter (fun c =>
                  match some (RhsElem.sym a) with
                  | some (.sym a) => lhsGet g c.rule == some a
                  | _ => false)) σ with
            | error e => rw [h1] at h; simp at h
            | ok pr =>
              rw [h1] at h
              obtain ⟨entries, σ2⟩ := pr
              simp only [Except.ok.injEq, Prod.mk.injEq] at h
              have hL : L ∈ entries := List.mem_of_mem_head? (by rw [h.1]; rfl)
              obtain ⟨c, hc, σa, L1, kids, σb, σc, hh1, hh2, hentry⟩ :=
                dfsCands_entries f root state depth _ σ entries σ2 h1 L hL
              have hco : c.origin ≤ root.origin :=
                ih root c.origin (depth + 1) σa L1 σb hro hh1
              have hcs := (hb state stateList hst c (List.mem_of_mem_filter hc)).1
              omega
      | none =>
        rw [helem] at h
        simp only at h
        cases hst : states[state]? with
        | none => rw [hst] at h; simp at h
        | some stateList =>
          rw [hst] at h
          simp only at h
          rw [dfsCandsF_eq] at h
          cases h1 : dfsCands g tokens states f root state depth
              (stateList.filter (fun c =>
                match (none : Option RhsElem) with
                | some (.sym a) => lhsGet g c.rule == some a
                | _ => false)) σ with
          | error e => rw [h1] at h; simp at h
          | ok pr =>
            rw [h1] at h
            obtain ⟨entries, σ2⟩ := pr
            simp only [Except.ok.injEq, Prod.mk.injEq] at h
            have hL : L ∈ entries := List.mem_of_mem_head? (by rw [h.1]; rfl)
            obtain ⟨c, hc, σa, L1, kids, σb, σc, hh1, hh2, hentry⟩ :=
              dfsCands_entries f root state depth _ σ entries σ2 h1 L hL
            have hco : c.origin ≤ root.origin :=
              ih root c.origin (depth + 1) σa L1 σb hro hh1
            have hcs := (hb state stateList hst c (List.mem_of_mem_filter hc)).1
            omega

/-- Yield lemma: a successful `dfsHelper` whose result (and every node
below it) carries a materialised children list yields exactly the tokens
from the start position to the root item's end position. -/
theorem dfsHelper_yield {g : Grammar} {tokens : List String} {states : Chart}
    (hb : ChartBound states tokens.length) :
    ∀ (f : Nat) (root : Item) (state depth : Nat) (σ : RegexSt)
      (L : List PChild) (σ' : RegexSt),
      root.origin ≤ tokens.length →
      dfsHelper g tokens states f root state depth σ = .ok (some L, σ') →
      childrenAllSome L = true →
      yieldChildren L = sliceTok tokens state root.origin := by
  intro f
  induction f with
  | zero => intro root state depth σ L σ' hro h hall; simp [dfsHelper] at h
  | succ f ih =>
    intro root state depth σ L σ' hro h hall
    rw [dfsHelper] at h
    split at h
    · rename_i hcond
      simp only [Bool.and_eq_true, beq_iff_eq] at hcond
      simp only [Except.ok.injEq, Prod.mk.injEq, Option.some.injEq] at h
      rw [← h.1, hcond.1, sliceTok_self]
      rfl
    · cases helem : elemAt g root.rule depth with
      | some e =>
        cases e with
        | pat p =>
          rw [helem] at h
          simp only at h
          split at h
          · cases h1 : dfsHelper g tokens states f root (state + 1) (depth + 1)
                (jsTest σ p (tokAt tokens state)).2 with
            | error e => rw [h1] at h; simp at h
            | ok pr1 =>
              rw [h1] at h
              obtain ⟨sub1, σ1⟩ := pr1
              cases sub1 with
              | none => simp at h
              | some L2 =>
                simp only [Except.ok.injEq, Prod.mk.injEq, Option.some.injEq] at h
                rw [← h.1] at hall ⊢
                have hstep : state + 1 ≤ root.origin :=
                  dfsHelper_state_le hb f root (state + 1) (depth + 1) _ L2 σ1 hro h1
                have hslt : state < tokens.length := by omega
                have hts : tokens[state]? = some tokens[state] :=
                  (List.getElem?_eq_some_getElem_iff tokens state hslt).mpr trivial
                have hall2 : childrenAllSome L2 = true := by
                  simpa [childrenAllSome] using hall
                have hy2 := ih root (state + 1) (depth + 1) _ L2 σ1 hro h1 hall2
                rw [sliceTok_cons (by omega) hts]
                show (tokens[state]?).getD "undefined" :: yieldChildren L2 = _
                rw [hts, hy2]
                rfl
          · simp at h
        | str lit =>
          rw [helem] at h
          simp only at h
          split at h
          · rename_i hlit
            rw [beq_iff_eq] at hlit
            cases h1 : dfsHelper g tokens states f root (state + 1) (depth + 1) σ with
            | error e => rw [h1] at h; simp at h
            | ok pr1 =>
              rw [h1] at h
              obtain ⟨sub1, σ1⟩ := pr1
              cases sub1 with
              | none => simp at h
              | some L2 =>
                simp only [Except.ok.injEq, Prod.mk.injEq, Option.some.injEq] at h
                rw [← h.1] at hall ⊢
                have hstep : state + 1 ≤ root.origin :=
                  dfsHelper_state_le hb f root (state + 1) (depth + 1) _ L2 σ1 hro h1
                have hall2 : childrenAllSome L2 = true := by
                  simpa [childrenAllSome] using hall
                have hy2 := ih root (state + 1) (depth + 1) _ L2 σ1 hro h1 hall2
                rw [sliceTok_cons (by omega) hlit]
                show (tokens[state]?).getD "undefined" :: yieldChildren L2 = _
                rw [hlit, hy2]
                rfl
          · simp at h
        | sym a =>
          rw [helem] at h
          simp only at h
          cases hst : states[state]? with
          | none => rw [hst] at h; simp at h
          | some stateList =>
            rw [hst] at h
            simp only at h
            rw [dfsCandsF_eq] at h
            cases h1 : dfsCands g tokens states f root state depth
                (stateList.filter (fun c =>
                  match some (RhsElem.sym a) with
                  | some (.sym a) => lhsGet g c.rule == some a
                  | _ => false)) σ with
            | error e => rw [h1] at h; simp at h
            | ok pr =>
              rw [h1] at h
              obtain ⟨entries, σ2⟩ := pr
              simp only [Except.ok.injEq, Prod.mk.injEq] at h
              have hL : L ∈ entries := List.mem_of_mem_head? (by rw [h.1]; rfl)
              obtain ⟨c, hc, σa, L1, kids, σb, σc, hh1, hh2, hentry⟩ :=
                dfsCands_entries f root state depth _ σ entries σ2 h1 L hL
              have hcmem : c ∈ stateList := List.mem_of_mem_filter hc
              have hcb := hb state stateList hst c hcmem
              cases kids with
              | none =>
                rw [hentry] at hall
                simp [childrenAllSome, treeAllSome] at hall
              | some Lk =>
                rw [hentry] at hall ⊢
                have halls : treeAllSome (.mk c.rule (some Lk)) = true ∧
                    childrenAllSome L1 = true := by
                  have := hall
                  simp only [childrenAllSome, Bool.and_eq_true] at this
                  exact this
                have hallk : childrenAllSome Lk = true := by
                  simpa [treeAllSome] using halls.1
                have hyk := ih c state 0 σb Lk σc hcb.2 hh2 hallk
                have hy1 := ih root c.origin (depth + 1) σa L1 σb hro hh1 halls.2
                have hco : c.origin ≤ root.origin :=
                  dfsHelper_state_le hb f root c.origin (depth + 1) σa L1 σb hro hh1
                show yieldTree (.mk c.rule (some Lk)) ++ yieldChildren L1 = _
                rw [sliceTok_append hcb.1 hco, ← hyk, ← hy1]
                rfl
      | none =>
        rw [helem] at h
        simp only at h
        cases hst : states[state]? with
        | none => rw [hst] at h; simp at h
        | some stateList =>
          rw [hst] at h
          simp only at h
          rw [dfsCandsF_eq] at h
          cases h1 : dfsCands g tokens states f root state depth
              (stateList.filter (fun c =>
                match (none : Option RhsElem) with
                | some (.sym a) => lhsGet g c.rule == some a
                | _ => false)) σ with
          | error e => rw [h1] at h; simp at h
          | ok pr =>
            rw [h1] at h
            obtain ⟨entries, σ2⟩ := pr
            simp only [Except.ok.injEq, Prod.mk.injEq] at h
            have hL : L ∈ entries := List.mem_of_mem_head? (by rw [h.1]; rfl)
            obtain ⟨c, hc, σa, L1, kids, σb, σc, hh1, hh2, hentry⟩ :=
              dfsCands_entries f root state depth _ σ entries σ2 h1 L hL
            have hcmem : c ∈ stateList := List.mem_of_mem_filter hc
            have hcb := hb state stateList hst c hcmem
            cases kids with
            | none =>
              rw [hentry] at hall
              simp [childrenAllSome, treeAllSome] at hall
            | some Lk =>
              rw [hentry] at hall ⊢
              have halls : treeAllSome (.mk c.rule (some Lk)) = true ∧
                  childrenAllSome L1 = true := by
                have := hall
                simp only [childrenAllSome, Bool.and_eq_true] at this
                exact this
              have hallk : childrenAllSome Lk = true := by
                simpa [treeAllSome] using halls.1
              have hyk := ih c state 0 σb Lk σc hcb.2 hh2 hallk
              have hy1 := ih root c.origin (depth + 1) σa L1 σb hro hh1 halls.2
              have hco : c.origin ≤ root.origin :=
                dfsHelper_state_le hb f root c.origin (depth + 1) σa L1 σb hro hh1
              show yieldTree (.mk c.rule (some Lk)) ++ yieldChildren L1 = _
              rw [sliceTok_append hcb.1 hco, ← hyk, ← hy1]
              rfl

theorem earleyS_chartBound {g : Grammar} {tokens : List String} {σ σ' : RegexSt}
    {chart : Chart} {fuel : Nat}
    (h : earleyS g tokens σ fuel = .ok (chart, σ')) :
    ChartBound chart tokens.length := by
  rw [earleyS] at h
  cases hgo : earleyGo g tokens fuel (initChart g tokens) 0 0 σ with
  | error e => rw [hgo] at h; simp at h
  | ok pr =>
    rw [hgo] at h
    obtain ⟨raw, σ1⟩ := pr
    simp only [Except.ok.injEq, Prod.mk.injEq] at h
    have hinv : ChartInv g raw :=
      chartInv_earleyGo fuel _ 0 0 σ (raw, σ1) (chartInv_init g tokens) hgo
    have hlen : raw.length = tokens.length + 1 := by
      have hgl := earleyGo_length hgo
      simp only at hgl
      rw [hgl, initChart, List.length_set, List.length_replicate]
    rw [← h.1]
    intro p L hL c hc
    have hcmem : c ∈ ((swapChart (removeUnfinishedItems g raw))[p]?.getD []) := by
      rw [hL]; exact hc
    rw [swapChart_mem] at hcmem
    obtain ⟨i, st, hst, it, hit, horig, hplen, rfl⟩ := hcmem
    rw [removeUnfinished_get, Option.map_eq_some'] at hst
    obtain ⟨Li, hLi, rfl⟩ := hst
    have hitmem : it ∈ Li := List.mem_of_mem_filter hit
    have h1 := (hinv i Li hLi it hitmem).1
    have hi : i < raw.length := (List.getElem?_eq_some.mp hLi).1
    constructor
    · show p ≤ i
      omega
    · show i ≤ tokens.length
      omega

/-- Claim C4 (amended): if `parse(s, g)` returns a tree `T` in which
every node carries a materialised (non-`null`) children list, then the
left-to-right concatenation of `T`'s leaf tokens equals `tokenize(s, g)`.
(The proviso is necessary: a candidate's own expansion is stored
unchecked at parser.js line 190, and with a `g`-flagged pattern it can be
`null` inside a returned tree — see the counterexample.) -/
theorem C4_theorem (sent : String) (g : Grammar) (σ σ' : RegexSt) (fuel : Nat)
    (T : PTree) (tokens : List String)
    (htk : tokenizeJs sent (some g) = .ok tokens)
    (hrun : parseS sent (some g) none σ fuel = .ok (T, σ'))
    (hall : treeAllSome T = true) :
    yieldTree T = tokens := by
  rw [parseS] at hrun
  simp only [Option.getD_none] at hrun
  rw [htk] at hrun
  simp only at hrun
  cases he : earleyS g tokens σ fuel with
  | error e => rw [he] at hrun; simp at hrun
  | ok pr =>
    obtain ⟨chart, σ1⟩ := pr
    rw [he] at hrun
    simp only at hrun
    have hb : ChartBound chart tokens.length := earleyS_chartBound he
    rw [dfs] at hrun
    cases h0 : chart[0]? with
    | none => rw [h0] at hrun; simp at hrun
    | some s0 =>
      rw [h0] at hrun
      simp only at hrun
      cases hr : rootPick s0 with
      | none => rw [hr] at hrun; simp at hrun
      | some root =>
        rw [hr] at hrun
        simp only at hrun
        split at hrun
        · simp at hrun
        · rename_i hne
          have hron : root.origin = tokens.length := by
            by_contra hcon
            exact hne hcon
          cases h1 : dfsHelper g tokens chart fuel root 0 0 σ1 with
          | error e => rw [h1] at hrun; simp at hrun
          | ok pr2 =>
            rw [h1] at hrun
            obtain ⟨ch, σ2⟩ := pr2
            simp only [Except.ok.injEq, Prod.mk.injEq] at hrun
            rw [← hrun.1] at hall ⊢
            cases ch with
            | none => simp [treeAllSome] at hall
            | some L =>
              have hallc : childrenAllSome L = true := by
                simpa [treeAllSome] using hall
              have hy := dfsHelper_yield hb fuel root 0 0 σ1 L σ2
                (le_of_eq hron) h1 hallc
              show yieldChildren L = tokens
              rw [hy, hron, sliceTok_all]

/-- Claim C4, refuted as stated: with the grammar `S → A A; A → /a+/g` and
the sentence `"aaa aaaa"`, `parse` *returns* a tree (the root spans both
tokens), but the `g`-flagged pattern's `lastIndex`, advanced during
recognition, makes the re-test of `"aaa"` during extraction fail, so the
first `A` subtree is stored with `null` children (parser.js line 190
never checks the expansion).  The yield of the returned tree is
`["aaaa"]`, not `tokenize(s, g) = ["aaa", "aaaa"]`. -/
theorem C4_counterexample :
    ((parseS "aaa aaaa" (some [⟨0, [.sym 1, .sym 1]⟩,
        ⟨1, [.pat ⟨.cat (.char 'a') (.star (.char 'a')), true, 0⟩]⟩])
        none [] 300).toOption.map (fun pr => (yieldTree pr.1, treeAllSome pr.1)) =
        some (["aaaa"], false)) ∧
    (tokenizeJs "aaa aaaa" (some [⟨0, [.sym 1, .sym 1]⟩,
        ⟨1, [.pat ⟨.cat (.char 'a') (.star (.char 'a')), true, 0⟩]⟩]) =
      .ok ["aaa", "aaaa"]) ∧
    (["aaaa"] ≠ ["aaa", "aaaa"]) :=
  ⟨rfl, rfl, by decide⟩

/-- Witness for `C4_theorem`: the grammar `S → 'a'` on sentence `"a"`. -/
theorem C4_witness :
    yieldTree (.mk 0 (some [.tok (some "a")])) = ["a"] :=
  C4_theorem "a" [⟨0, [.str "a"]⟩] [] [] 100 (.mk 0 (some [.tok (some "a")])) ["a"]
    rfl rfl rfl
